import Mathlib

/- Verification development for the vscode-text-tables core: the width
   calculator (src/utils.ts), the table model (ttTable.ts), the Markdown and
   Org parsers and stringifiers, and the table navigator.  JavaScript strings
   are modelled as lists of Unicode scalar values (Lean Char); where the code
   walks UTF-16 code units (getStringWidth via charCodeAt), the encoding is
   made explicit through a UTF-16 encoder, so that surrogate-pair behaviour is
   captured faithfully. -/

namespace TextTables

/-- A JavaScript string, modelled as its list of Unicode scalar values. -/
abbrev Str := List Char

/-- Whitespace as used by the program through String.prototype.trim and the
    regular expression class backslash-s: the ECMAScript WhiteSpace set (tab,
    vertical tab, form feed, space, no-break space, zero-width no-break space
    and the Unicode space separators U+1680, U+2000 to U+200A, U+202F, U+205F,
    U+3000) together with the line terminators LF, CR, U+2028 and U+2029. -/
def jsIsSpace (c : Char) : Bool :=
  c == ' ' || c == '\t' || c == '\n' || c == '\r' ||
  c == Char.ofNat 0x0B || c == Char.ofNat 0x0C ||
  c == Char.ofNat 0xA0 || c == Char.ofNat 0x1680 ||
  (0x2000 ≤ c.toNat && c.toNat ≤ 0x200A) ||
  c == Char.ofNat 0x2028 || c == Char.ofNat 0x2029 ||
  c == Char.ofNat 0x202F || c == Char.ofNat 0x205F ||
  c == Char.ofNat 0x3000 || c == Char.ofNat 0xFEFF

/-- String.prototype.trimStart. -/
def trimLeft (s : Str) : Str := s.dropWhile jsIsSpace

/-- String.prototype.trimEnd. -/
def trimRight (s : Str) : Str := (s.reverse.dropWhile jsIsSpace).reverse

/-- String.prototype.trim. -/
def jsTrim (s : Str) : Str := trimRight (trimLeft s)

/-- text.replace over the global whitespace regular expression with the empty
    replacement: every whitespace character is removed. -/
def removeWs (s : Str) : Str := s.filter (fun c => !jsIsSpace c)

/-- String.prototype.split with a single-character separator; JavaScript and
    List.splitOn agree on this case (the empty string splits to one empty
    piece, a lone separator to two empty pieces). -/
def jsSplit (sep : Char) (s : Str) : List Str := s.splitOn sep

/-- String.prototype.startsWith. -/
def jsStartsWith : Str → Str → Bool
  | _, [] => true
  | [], _ :: _ => false
  | c :: cs, p :: ps => c == p && jsStartsWith cs ps

/-- String.prototype.endsWith. -/
def jsEndsWith (s pat : Str) : Bool := jsStartsWith s.reverse pat.reverse

/-- String.prototype.slice with two non-negative indices. -/
def jsSlice (s : Str) (a b : Nat) : Str := (s.drop a).take (b - a)

/-- String.prototype.slice with one non-negative index. -/
def jsSliceFrom (s : Str) (a : Nat) : Str := s.drop a

/-- isWideCharacter from src/utils.ts: the wide ranges tested against a
    charCodeAt result (CJK Unified Ideographs, Hiragana, Katakana, full-width
    Latin, CJK Symbols and Punctuation, CJK Extensions A through E). -/
def isWideCharacter (code : Nat) : Bool :=
  (0x4E00 ≤ code && code ≤ 0x9FFF) ||
  (0x3040 ≤ code && code ≤ 0x309F) ||
  (0x30A0 ≤ code && code ≤ 0x30FF) ||
  (0xFF01 ≤ code && code ≤ 0xFF5E) ||
  (0x3000 ≤ code && code ≤ 0x303F) ||
  (0x3400 ≤ code && code ≤ 0x4DBF) ||
  (0x20000 ≤ code && code ≤ 0x2A6DF) ||
  (0x2A700 ≤ code && code ≤ 0x2B73F) ||
  (0x2B740 ≤ code && code ≤ 0x2B81F) ||
  (0x2B820 ≤ code && code ≤ 0x2CEAF)

/-- The UTF-16 encoding of a sequence of Unicode scalar values.  A JavaScript
    string is stored as UTF-16 code units; str.length counts units and
    str.charCodeAt(i) yields the unit at i, so a supplementary-plane character
    contributes a surrogate pair of two units. -/
def utf16Encode (cps : List Nat) : List Nat :=
  (cps.map fun cp =>
    if cp < 0x10000 then [cp]
    else [0xD800 + (cp - 0x10000) / 0x400, 0xDC00 + (cp - 0x10000) % 0x400]).flatten

/-- The loop of getStringWidth from src/utils.ts, one iteration per UTF-16
    code unit: add 2 for a unit in a wide range, 1 otherwise. -/
def getStringWidthUnits (units : List Nat) : Nat :=
  units.foldl (fun w code => w + (if isWideCharacter code then 2 else 1)) 0

/-- getStringWidth from src/utils.ts applied to a JavaScript string: the
    string is UTF-16 encoded and the loop walks the code units. -/
def getStringWidth (s : Str) : Nat :=
  getStringWidthUnits (utf16Encode (s.map Char.toNat))

/-- String.prototype.length: the number of UTF-16 code units (an astral
    character counts as two). -/
def jsLength (s : Str) : Nat := (utf16Encode (s.map Char.toNat)).length

/-- The width function described by the specification: a direct sum over code
    points, 2 for a code point in a wide range and 1 for every other. -/
def codePointWidth (cps : List Nat) : Nat :=
  cps.foldl (fun w cp => w + (if isWideCharacter cp then 2 else 1)) 0

/-- padString from src/utils.ts with the default fill character: append
    spaces until the display width reaches the target (never truncates). -/
def padString (s : Str) (targetWidth : Nat) : Str :=
  s ++ List.replicate (targetWidth - getStringWidth s) ' '

/-! ### The table model (ttTable.ts) -/

/-- RowType from ttTable.ts. -/
inductive RowType where
  | Unknown
  | Separator
  | Data
deriving DecidableEq, Repr

/-- Alignment from ttTable.ts. -/
inductive Alignment where
  | Left
  | Center
  | Right
deriving DecidableEq, Repr

/-- ColDef from ttTable.ts. -/
structure ColDef where
  alignment : Alignment
  width : Nat
deriving DecidableEq, Repr

/-- The default column definition pushed by the model code. -/
def defaultCol : ColDef := ⟨Alignment.Left, 0⟩

/-- The Table class state from ttTable.ts: rows, cols and the private
    row-major data grid, plus the startLine coordinate offset. -/
structure Table where
  startLine : Nat
  rows : List RowType
  cols : List ColDef
  data : List (List Str)
deriving DecidableEq, Repr

/-- new Table(). -/
def emptyTable : Table := ⟨0, [], [], []⟩

/-- A row padded on the right with empty strings up to a target length
    (the while loop pushing empty strings in addRow). -/
def padTo (r : List Str) (n : Nat) : List Str := r ++ List.replicate (n - r.length) []

/-- The mutual-padding loop of addRow: walking the existing rows in order,
    the shorter of the current row and the incoming values list is padded
    with empty strings to the longer length, mutating whichever is shorter
    (so the values list can grow while the loop runs). -/
def padLoop : List (List Str) → List Str → List (List Str) × List Str
  | [], v => ([], v)
  | r :: rs, v =>
    if r.length < v.length then
      let q := padLoop rs v
      (padTo r v.length :: q.1, q.2)
    else
      let q := padLoop rs (padTo v r.length)
      (r :: q.1, q.2)

/-- The cols.forEach width update of addRow: each column's width becomes the
    maximum of its current width and the display width of the corresponding
    value (a missing value reads as the empty string). -/
def updateColWidths : List ColDef → List Str → List ColDef
  | [], _ => []
  | c :: cs, vs =>
    { c with width := max c.width (getStringWidth (vs.headD [])) } :: updateColWidths cs vs.tail

/-- Table.addRow from ttTable.ts. -/
def Table.addRow (t : Table) (type : RowType) (values : List Str) : Table :=
  let values1 := if values.isEmpty && t.cols.isEmpty then [([] : Str)] else values
  let cols1 := t.cols ++ List.replicate (values1.length - t.cols.length) defaultCol
  let q := padLoop t.data values1
  let cols2 := updateColWidths cols1 q.2
  { t with rows := t.rows ++ [type], cols := cols2, data := q.1 ++ [q.2] }

/-- Table.getAt from ttTable.ts (total here; the claims only use it in
    range, where the JavaScript code is defined as well). -/
def Table.getAt (t : Table) (row col : Nat) : Str :=
  (t.data.getD row []).getD col []

/-- Table.getRow from ttTable.ts. -/
def Table.getRow (t : Table) (row : Nat) : List Str :=
  t.data.getD row []

/-- The rescan loop of setAt: the maximum display width over data of the
    cells of one column, a missing cell reading as the empty string. -/
def colMaxWidth (data : List (List Str)) (col : Nat) : Nat :=
  data.foldl (fun m r => max m (getStringWidth (r.getD col []))) 0

/-- Table.setAt from ttTable.ts: write the cell, then update the column
    width incrementally; if the old value was as wide as the column and the
    new one is narrower, rescan the whole column and clamp at 3. -/
def Table.setAt (t : Table) (row col : Nat) (value : Str) : Table :=
  let oldValue := (t.data.getD row []).getD col []
  let oldW := getStringWidth oldValue
  let newW := getStringWidth value
  let data1 := t.data.set row ((t.data.getD row []).set col value)
  let curW := (t.cols.getD col defaultCol).width
  let cols1 :=
    if curW < newW then
      t.cols.set col { t.cols.getD col defaultCol with width := newW }
    else if oldW = curW ∧ newW < oldW then
      t.cols.set col { t.cols.getD col defaultCol with width := max (colMaxWidth data1 col) 3 }
    else t.cols
  { t with data := data1, cols := cols1 }

/-- The scan of recalculateColumnWidths for one column: the maximum display
    width over the rows that actually have a cell in that column. -/
def colDataMax (data : List (List Str)) (j : Nat) : Nat :=
  data.foldl (fun m r => if j < r.length then max m (getStringWidth (r.getD j [])) else m) 0

/-- The widths of one column's cells across all stored rows, a missing cell
    reading as the empty string (the cell-width list both rescans fold a
    maximum over). -/
def colCellWidths (data : List (List Str)) (col : Nat) : List Nat :=
  data.map fun r => getStringWidth (r.getD col [])

/-- The per-column width reset and rescan of recalculateColumnWidths,
    walking the column list with its running index. -/
def recalcColsAux (data : List (List Str)) : List ColDef → Nat → List ColDef
  | [], _ => []
  | c :: cs, j => { c with width := colDataMax data j } :: recalcColsAux data cs (j + 1)

/-- table.rows.some(x => x.type === RowType.Separator). -/
def hasSeparatorRow (t : Table) : Bool := t.rows.any (· == RowType.Separator)

/-- cols.forEach(x => x.width = Math.max(x.width, 3)). -/
def raiseWidthsTo3 (cols : List ColDef) : List ColDef :=
  cols.map fun c => { c with width := max c.width 3 }

/-- Table.recalculateColumnWidths from ttTable.ts. -/
def Table.recalculateColumnWidths (t : Table) : Table :=
  let cols1 := recalcColsAux t.data t.cols 0
  { t with cols := if hasSeparatorRow t then raiseWidthsTo3 cols1 else cols1 }

/-- Table.addColumn from ttTable.ts. -/
def Table.addColumn (t : Table) : Table :=
  { t with cols := t.cols ++ [defaultCol], data := t.data.map (· ++ [([] : Str)]) }

/-- The column-swap operation of the move-column commands (commands.ts):
    exchange the two column definitions, then for every row read both cells
    and write them back crosswise through setAt, then recalculate. -/
def Table.swapColumns (t : Table) (sourceCol targetCol : Nat) : Table :=
  let cols1 := (t.cols.set sourceCol (t.cols.getD targetCol defaultCol)).set
    targetCol (t.cols.getD sourceCol defaultCol)
  let t1 := { t with cols := cols1 }
  let t2 := (List.range t1.rows.length).foldl (fun s i =>
    let v1 := s.getAt i sourceCol
    let v2 := s.getAt i targetCol
    (s.setAt i targetCol v1).setAt i sourceCol v2) t1
  t2.recalculateColumnWidths

/-! ### Parsers (markdownParser.ts, orgParser.ts) -/

/-- MarkdownParser.isSeparatorRow: after removing all whitespace the line
    starts with a bar-dash or a bar-colon-dash. -/
def MarkdownParser.isSeparatorRow (text : Str) : Bool :=
  let cleaned := removeWs text
  jsStartsWith cleaned ['|', '-'] || jsStartsWith cleaned ['|', ':', '-']

/-- The alignment read off one separator cell: a trailing colon means right,
    leading and trailing colons mean center, anything else is left. -/
def mdAlignOf (part : Str) : Alignment :=
  let trimmed := jsTrim part
  if trimmed.getLastD ' ' = ':' then
    if trimmed.headD ' ' = ':' then Alignment.Center else Alignment.Right
  else Alignment.Left

/-- One iteration of the rowParts.forEach alignment extraction: parts
    shorter than three UTF-16 units are skipped; an existing column at the
    running index gets its alignment overwritten, otherwise a width-3 column
    is pushed. -/
def mdApplyAlignPart (cols : List ColDef) (i : Nat) (part : Str) : List ColDef :=
  if jsLength part < 3 then cols
  else
    let align := mdAlignOf part
    if i < cols.length then
      cols.set i { cols.getD i defaultCol with alignment := align }
    else cols ++ [⟨align, 3⟩]

/-- The rowParts.forEach loop, with its running index. -/
def mdApplyAligns (cols : List ColDef) (i : Nat) : List Str → List ColDef
  | [] => cols
  | part :: rest => mdApplyAligns (mdApplyAlignPart cols i part) (i + 1) rest

/-- The separator branch of MarkdownParser.parse: append a separator row
    with an empty values list, then extract per-column alignment from the
    whitespace-free line. -/
def mdSeparatorStep (t : Table) (cleaned : Str) : Table :=
  let t1 := t.addRow RowType.Separator []
  let startIndex := if jsStartsWith cleaned ['|'] then 1 else 0
  let endIndex := cleaned.length - (if jsEndsWith cleaned ['|'] then 1 else 0)
  let rowParts := jsSplit '|' (jsSlice cleaned startIndex endIndex)
  { t1 with cols := mdApplyAligns t1.cols 0 rowParts }

/-- The data-line cell extraction shared verbatim by both parsers: a line
    ending in the bar marker is a complete row (drop both markers, split,
    trim); a line that does not end in the marker is an in-progress row
    (split everything after the first marker). -/
def dataRowValues (s : Str) : List Str :=
  if jsEndsWith s ['|'] then
    (jsSplit '|' (jsSlice s 1 (s.length - 1))).map jsTrim
  else
    (jsSplit '|' (jsSliceFrom s 1)).map jsTrim

/-- One line of MarkdownParser.parse. -/
def mdLineStep (t : Table) (s : Str) : Table :=
  let cleanedString := removeWs s
  if MarkdownParser.isSeparatorRow cleanedString then mdSeparatorStep t cleanedString
  else t.addRow RowType.Data (dataRowValues s)

/-- MarkdownParser.parse: empty input gives none; otherwise split into
    lines, trim, keep the lines starting with the bar marker, build the
    table line by line and recalculate the column widths. -/
def MarkdownParser.parse (text : Str) : Option Table :=
  if text.isEmpty then none
  else
    let strings := ((jsSplit '\n' text).map jsTrim).filter (fun x => jsStartsWith x ['|'])
    some (strings.foldl mdLineStep emptyTable).recalculateColumnWidths

/-- OrgParser.isSeparatorRow: the character at index 1 is a dash. -/
def OrgParser.isSeparatorRow (text : Str) : Bool :=
  decide (1 < text.length) && (text.getD 1 ' ' == '-')

/-- One line of OrgParser.parse (the data-line code is identical to the
    Markdown one). -/
def orgLineStep (t : Table) (s : Str) : Table :=
  if OrgParser.isSeparatorRow s then t.addRow RowType.Separator []
  else t.addRow RowType.Data (dataRowValues s)

/-- OrgParser.parse. -/
def OrgParser.parse (text : Str) : Option Table :=
  if text.isEmpty then none
  else
    let strings := ((jsSplit '\n' text).map jsTrim).filter (fun x => jsStartsWith x ['|'])
    some (strings.foldl orgLineStep emptyTable).recalculateColumnWidths

/-! ### Stringifiers (markdownParser.ts, orgParser.ts) -/

/-- The dataRowReducer shared by both stringifiers, with the running cell
    index and the accumulated prefix: space, padded value, space, marker. -/
def dataCellsRender (cols : List ColDef) : Nat → Str → List Str → Str
  | _, prev, [] => prev
  | idx, prev, cur :: rest =>
    dataCellsRender cols (idx + 1)
      (prev ++ [' '] ++ padString cur (cols.getD idx defaultCol).width ++ [' ', '|']) rest

/-- A data row rendered by reduction from the bar marker. -/
def dataRowLine (cols : List ColDef) (rowData : List Str) : Str :=
  dataCellsRender cols 0 ['|'] rowData

/-- One cell of the Markdown separatorReducer: a two-character lead (space
    dash, or space colon when centered), the dash fill of length width minus
    two, and the trail (colon for non-left alignment) plus marker. -/
def mdSeparatorCell (c : ColDef) : Str :=
  (if c.alignment == Alignment.Center then [' ', ':'] else [' ', '-']) ++
  List.replicate (c.width - 2) '-' ++
  (if c.alignment != Alignment.Left then [':', ' ', '|'] else ['-', ' ', '|'])

/-- The whitespace-free alignment pattern of one rendered Markdown
    separator cell: what survives between the bar markers after the parser
    removes all whitespace. -/
def mdSepPattern (c : ColDef) : Str :=
  (if c.alignment == Alignment.Center then [':'] else ['-']) ++
  List.replicate (c.width - 2) '-' ++
  (if c.alignment != Alignment.Left then [':'] else ['-'])

/-- The Markdown separatorReducer, one iteration per stored cell of the
    separator row, reading the column at the running index. -/
def mdSeparatorRender (cols : List ColDef) : Nat → Str → List Str → Str
  | _, prev, [] => prev
  | idx, prev, _ :: rest =>
    mdSeparatorRender cols (idx + 1) (prev ++ mdSeparatorCell (cols.getD idx defaultCol)) rest

/-- A Markdown separator row rendered by reduction from the bar marker. -/
def mdSeparatorLine (cols : List ColDef) (rowData : List Str) : Str :=
  mdSeparatorRender cols 0 ['|'] rowData

/-- One row of MarkdownStringifier.stringify: the reducer is looked up by
    row type, an Unknown row renders as the empty string. -/
def mdRowLine (t : Table) (i : Nat) : Str :=
  match t.rows.getD i RowType.Unknown with
  | RowType.Data => dataRowLine t.cols (t.getRow i)
  | RowType.Separator => mdSeparatorLine t.cols (t.getRow i)
  | RowType.Unknown => []

/-- MarkdownStringifier.stringify: if any row is a separator every column
    width is first raised to at least 3, then the rows are rendered and
    joined with newlines. -/
def MarkdownStringifier.stringify (t : Table) : Str :=
  let t1 := if hasSeparatorRow t then { t with cols := raiseWidthsTo3 t.cols } else t
  List.intercalate ['\n'] ((List.range t1.rows.length).map (mdRowLine t1))

/-- The Org separatorReducer: width plus two dashes per cell, closed by the
    intersection plus sign except for the last column's bar. -/
def orgSeparatorRender (cols : List ColDef) : Nat → Str → List Str → Str
  | _, prev, [] => prev
  | idx, prev, _ :: rest =>
    orgSeparatorRender cols (idx + 1)
      (prev ++ List.replicate ((cols.getD idx defaultCol).width + 2) '-' ++
        (if idx = cols.length - 1 then ['|'] else ['+'])) rest

/-- An Org separator row rendered by reduction from the bar marker. -/
def orgSeparatorLine (cols : List ColDef) (rowData : List Str) : Str :=
  orgSeparatorRender cols 0 ['|'] rowData

/-- One row of OrgStringifier.stringify. -/
def orgRowLine (t : Table) (i : Nat) : Str :=
  match t.rows.getD i RowType.Unknown with
  | RowType.Data => dataRowLine t.cols (t.getRow i)
  | RowType.Separator => orgSeparatorLine t.cols (t.getRow i)
  | RowType.Unknown => []

/-- OrgStringifier.stringify: no width adjustment, rows rendered and joined
    with newlines. -/
def OrgStringifier.stringify (t : Table) : Str :=
  List.intercalate ['\n'] ((List.range t.rows.length).map (orgRowLine t))

/-- The width-adjusted table the Markdown stringifier actually renders (its
    local variable holding the conditional minimum-width raise). -/
def mdRenderTable (t : Table) : Table :=
  if hasSeparatorRow t then { t with cols := raiseWidthsTo3 t.cols } else t

/-! ### The table navigator (ttTable.ts, TableNavigator) -/

/-- vscode.Position (line and character are non-negative). -/
structure Pos where
  line : Nat
  character : Nat
deriving DecidableEq, Repr

/-- vscode.Position.isBeforeOrEqual: lexicographic order. -/
def posLe (a b : Pos) : Bool :=
  a.line < b.line || (a.line == b.line && a.character ≤ b.character)

/-- vscode.Range as a start and an end position. -/
structure JRange where
  start : Pos
  stop : Pos
deriving DecidableEq, Repr

/-- vscode.Range.contains for a position: inclusive on both ends. -/
def rangeContains (r : JRange) (p : Pos) : Bool :=
  posLe r.start p && posLe p r.stop

/-- JumpPosition from ttTable.ts; every construction links the new entry to
    the then-last entry of the result array, so the prev and next pointers
    are exactly array adjacency and are modelled by list indices. -/
structure JumpPos where
  range : JRange
  isSeparator : Bool
deriving DecidableEq, Repr

/-- A placeholder jump position, only read behind bounds checks. -/
def dummyJumpPos : JumpPos := ⟨⟨⟨0, 0⟩, ⟨0, 0⟩⟩, false⟩

/-- calculateCellPositionsFromText: the pipe positions of the line text, and
    the content span between each consecutive pair (or after a lone pipe). -/
def calculateCellPositionsFromText (lineText : Str) : List (Nat × Nat) :=
  let pipePositions := (lineText.enum.filter (fun ic => ic.2 == '|')).map (·.1)
  if pipePositions.length < 2 then
    match pipePositions with
    | [p0] =>
      let cellStart := min (p0 + 2) lineText.length
      [(cellStart, max cellStart lineText.length)]
    | _ => []
  else
    (pipePositions.zip pipePositions.tail).map fun pq =>
      let cellStart := min (pq.1 + 2) lineText.length
      (cellStart, max cellStart (pq.2 - 1))

/-- The no-document fallback of buildJumpPositions for one data row: one
    position per column, contentStart = currentPosition + 1, advancing by
    marker, space, content and space. -/
def fallbackRowPositions (rowLine : Nat) : Nat → List ColDef → List JumpPos
  | _, [] => []
  | currentPosition, c :: cs =>
    ⟨⟨⟨rowLine, currentPosition + 1⟩, ⟨rowLine, currentPosition + 1 + c.width⟩⟩, false⟩ ::
      fallbackRowPositions rowLine (currentPosition + 1 + 1 + c.width + 1) cs

/-- One row of buildJumpPositions: a separator row emits one single-line
    placeholder starting at the previous entry's end; a data row emits one
    position per cell, from the live line text when a document is available
    and covers the row's line, and from the column widths otherwise. -/
def bjpStep (t : Table) (doc : Option (List Str)) (acc : List JumpPos)
    (irow : Nat × RowType) : List JumpPos :=
  let rowLine := t.startLine + irow.1
  match irow.2 with
  | RowType.Separator =>
    let start := match acc.getLast? with
      | some prev => prev.range.stop
      | none => (⟨rowLine, 0⟩ : Pos)
    acc ++ [⟨⟨start, ⟨start.line + 1, start.character⟩⟩, true⟩]
  | _ =>
    match doc with
    | some lines =>
      if rowLine < lines.length then
        let lineText := lines.getD rowLine []
        let cps0 := calculateCellPositionsFromText lineText
        let cps := if cps0.isEmpty && lineText.contains '|' then
          [(2, lineText.length)] else cps0
        acc ++ (List.range (max cps.length t.cols.length)).map fun j =>
          if j < cps.length then
            let se := cps.getD j (0, 0)
            ⟨⟨⟨rowLine, se.1⟩, ⟨rowLine, se.2⟩⟩, false⟩
          else
            ⟨⟨⟨rowLine, 2 + j * 10⟩, ⟨rowLine, 2 + j * 10 + 5⟩⟩, false⟩
      else acc ++ fallbackRowPositions rowLine 1 t.cols
    | none => acc ++ fallbackRowPositions rowLine 1 t.cols

/-- TableNavigator.buildJumpPositions, walking the rows in order. -/
def buildJumpPositions (t : Table) (doc : Option (List Str)) : List JumpPos :=
  t.rows.enum.foldl (bjpStep t doc) []

/-- The next or prev accessor on the adjacency-linked jump positions. -/
def accIdx (len : Nat) (forward : Bool) (k : Nat) : Option Nat :=
  if forward then (if k + 1 < len then some (k + 1) else none)
  else (if 0 < k then some (k - 1) else none)

/-- The bottom half of TableNavigator.jump: reached when the cursor is in no
    known range or the accessor chain ran out.  At character zero the first
    data position of the line wins; otherwise the first data position of the
    line to the right of the cursor, else the first data position of the
    line. -/
def jumpFallback (positions : List JumpPos) (current : Pos) : Option Pos :=
  let fromChar0 : Option Pos :=
    if current.character = 0 then
      match positions.find? (fun x =>
        x.range.start.line == current.line && !x.isSeparator) with
      | some p => some p.range.start
      | none => none
    else none
  match fromChar0 with
  | some p => some p
  | none =>
    let sameLinePositions := positions.filter fun x =>
      x.range.start.line == current.line && !x.isSeparator
    if sameLinePositions.isEmpty then none
    else
      match sameLinePositions.find? (fun x =>
        current.character < x.range.start.character) with
      | some p => some p.range.start
      | none => sameLinePositions.head?.map (·.range.start)

/-- TableNavigator.jump: find the position containing the cursor, step once
    (skipping one separator placeholder, which returns none when the chain
    ends there), and otherwise fall back to the same-line heuristics. -/
def jump (positions : List JumpPos) (current : Pos) (forward : Bool) : Option Pos :=
  match positions.findIdx? (fun x => rangeContains x.range current) with
  | some k =>
    match accIdx positions.length forward k with
    | some k1 =>
      let j1 := positions.getD k1 dummyJumpPos
      if j1.isSeparator then
        match accIdx positions.length forward k1 with
        | some k2 => some ((positions.getD k2 dummyJumpPos).range.start)
        | none => none
      else some j1.range.start
    | none => jumpFallback positions current
  | none => jumpFallback positions current

/-- TableNavigator.nextCell on a navigator built from a table and an
    optional document. -/
def nextCell (t : Table) (doc : Option (List Str)) (p : Pos) : Option Pos :=
  jump (buildJumpPositions t doc) p true

/-- The character position of the start of data cell j in the no-document
    fallback geometry, accumulated from currentPosition. -/
def cellStartChar : Nat → List ColDef → Nat → Nat
  | cp, [], _ => cp + 1
  | cp, _ :: _, 0 => cp + 1
  | cp, c :: cs, j + 1 => cellStartChar (cp + 1 + 1 + c.width + 1) cs j

/-- The cursor position of data cell (i, j) of a table under the
    no-document fallback geometry. -/
def cellPos (t : Table) (i j : Nat) : Pos :=
  ⟨t.startLine + i, cellStartChar 1 t.cols j⟩

/-- The per-row blocks of jump positions of an all-data-rows table under
    the no-document fallback geometry. -/
def navBlocks (t : Table) (N : Nat) : List (List JumpPos) :=
  (List.range N).map fun i => fallbackRowPositions (t.startLine + i) 1 t.cols

/-! ### Invariants and concrete instances -/

/-- The column widths of a table are consistent when recalculating them is a
    no-op (the state right after recalculateColumnWidths). -/
abbrev consistentWidths (t : Table) : Prop := t.recalculateColumnWidths.cols = t.cols

/-- Every stored row has the same given length. -/
abbrev uniformLen (data : List (List Str)) (L : Nat) : Prop := ∀ r ∈ data, r.length = L

/-- The structural invariant of the model: one stored cell list per row
    descriptor, all cell lists of one common length, and that common length
    never above the column count. -/
def modelInvariant (t : Table) : Prop :=
  t.data.length = t.rows.length ∧ ∃ L, uniformLen t.data L ∧ L ≤ t.cols.length

/-- The mutating operations of the Table class used by the commands. -/
inductive TableOp where
  | addRowOp (type : RowType) (values : List Str)
  | addColumnOp
deriving Repr

/-- Apply one Table operation. -/
def applyOp (t : Table) : TableOp → Table
  | TableOp.addRowOp ty vs => t.addRow ty vs
  | TableOp.addColumnOp => t.addColumn

/-- Tables reachable through the public operations: fresh construction,
    parser construction in either dialect, row and column insertion, cell
    writes and the column-swap command. -/
inductive Reachable : Table → Prop
  | empty : Reachable emptyTable
  | parseMd (s : Str) (t : Table) : MarkdownParser.parse s = some t → Reachable t
  | parseOrg (s : Str) (t : Table) : OrgParser.parse s = some t → Reachable t
  | addRow (t : Table) (ty : RowType) (vs : List Str) : Reachable t → Reachable (t.addRow ty vs)
  | addColumn (t : Table) : Reachable t → Reachable t.addColumn
  | setAt (t : Table) (r c : Nat) (v : Str) : Reachable t → Reachable (t.setAt r c v)
  | swap (t : Table) (sc tc : Nat) : Reachable t → Reachable (t.swapColumns sc tc)
  | recalc (t : Table) : Reachable t → Reachable t.recalculateColumnWidths

/-- Counterexample table for the incremental-width claim: one column of
    width 4, consistent, no separator row. -/
def c1table : Table := ⟨0, [RowType.Data], [⟨Alignment.Left, 4⟩], [["abcd".toList]]⟩

/-- Witness table for the incremental-width claim: a data row and a
    separator row, width 3, consistent. -/
def w1table : Table :=
  ⟨0, [RowType.Data, RowType.Separator], [⟨Alignment.Left, 3⟩], [["ab".toList], [[]]]⟩

/-- A ragged Markdown input: the separator row has more cells than the data
    row, so alignment extraction pushes a second column definition without
    touching the stored rows. -/
def c3input : Str := "|a|\n|---|---|".toList

/-- A one-by-one table for the navigation claim. -/
def c4table : Table := ⟨0, [RowType.Data], [⟨Alignment.Left, 1⟩], [["a".toList]]⟩

/-- A rectangular table whose column width exceeds every cell width: the
    first stringify pads to width 5, re-parsing recalculates the width to 1,
    so the second stringify differs. -/
def c5table : Table := ⟨0, [RowType.Data], [⟨Alignment.Left, 5⟩], [["a".toList]]⟩

/-- A canonical table used as round-trip witness in both dialects. -/
def w5table : Table :=
  ⟨0, [RowType.Data, RowType.Separator, RowType.Data],
    [⟨Alignment.Left, 3⟩, ⟨Alignment.Left, 3⟩],
    [["a".toList, "b".toList], [[], []], ["1".toList, "2".toList]]⟩

/-- A separator-only table of column width 0: the Org stringifier renders
    it without any minimum-width adjustment. -/
def c6table : Table := ⟨0, [RowType.Separator], [⟨Alignment.Left, 0⟩], [[[]]]⟩

/-- A data cell value that survives the split-and-trim of a re-parse: it is
    unchanged by trimming and contains neither the cell marker nor a
    newline. -/
def cellOk (c : Str) : Prop :=
  trimLeft c = c ∧ trimRight c = c ∧ '|' ∉ c ∧ '\n' ∉ c

instance decCellOk (c : Str) : Decidable (cellOk c) := by
  unfold cellOk
  infer_instance

/-- The dialect-independent canonical form for the round-trip theorem: at
    least one column, the first row a data row, one stored cell list per
    row, data rows rectangular with round-trip-safe cells, separator rows
    storing one empty string per column, no unknown rows, and widths
    consistent with recalculateColumnWidths. -/
def canonicalShared (t : Table) : Prop :=
  1 ≤ t.cols.length ∧
  t.data.length = t.rows.length ∧
  t.rows.head? = some RowType.Data ∧
  (∀ i, i < t.rows.length →
    (t.rows.getD i RowType.Unknown = RowType.Data →
      (t.data.getD i []).length = t.cols.length ∧ ∀ c ∈ t.data.getD i [], cellOk c) ∧
    (t.rows.getD i RowType.Unknown = RowType.Separator →
      t.data.getD i [] = List.replicate t.cols.length [])) ∧
  (∀ r ∈ t.rows, r ≠ RowType.Unknown) ∧
  consistentWidths t

/-- Canonical form for the Markdown dialect: additionally no rendered data
    row may pass the separator-row test on re-parse, and a table without a
    separator row must carry only the default left alignment (there is no
    separator line to re-encode any other alignment). -/
def canonicalMd (t : Table) : Prop :=
  canonicalShared t ∧
  (∀ i, i < t.rows.length → t.rows.getD i RowType.Unknown = RowType.Data →
    MarkdownParser.isSeparatorRow (dataRowLine t.cols (t.data.getD i [])) = false) ∧
  (hasSeparatorRow t = false → ∀ c ∈ t.cols, c.alignment = Alignment.Left)

/-- Canonical form for the Org dialect: Org encodes no alignment at all, so
    only the default left alignment survives a round trip. -/
def canonicalOrg (t : Table) : Prop :=
  canonicalShared t ∧ ∀ c ∈ t.cols, c.alignment = Alignment.Left

/-! ### Padding lemmas -/

theorem padTo_length (r : List Str) (n : Nat) : (padTo r n).length = max r.length n := by
  simp [padTo]
  omega

theorem padTo_eq_self {r : List Str} {n : Nat} (h : n ≤ r.length) : padTo r n = r := by
  simp [padTo, Nat.sub_eq_zero_of_le h]

theorem padTo_zero (v : List Str) : padTo v 0 = v := padTo_eq_self (Nat.zero_le _)

theorem padTo_padTo (v : List Str) (n : Nat) (h : n ≤ (padTo v n).length) :
    padTo (padTo v n) n = padTo v n := padTo_eq_self h

/-- On a uniform data grid the mutual-padding loop pads every row to the
    incoming length and the incoming values to the common row length. -/
theorem padLoop_uniform (rows : List (List Str)) (v : List Str) (L : Nat)
    (h : uniformLen rows L) :
    padLoop rows v = (rows.map (fun r => padTo r v.length),
      if rows.isEmpty then v else padTo v L) := by
  induction rows generalizing v with
  | nil => simp [padLoop]
  | cons r rs ih =>
    have hr : r.length = L := h r (List.mem_cons_self _ _)
    have hrs : uniformLen rs L := fun x hx => h x (List.mem_cons_of_mem _ hx)
    simp only [padLoop]
    by_cases hlt : r.length < v.length
    · rw [if_pos hlt, ih v hrs]
      have hvL : padTo v L = v := padTo_eq_self (by omega)
      simp only [List.map_cons, List.isEmpty_cons]
      refine Prod.ext rfl ?_
      split <;> simp [hvL]
    · rw [if_neg hlt, ih (padTo v r.length) hrs]
      have hlen : (padTo v r.length).length = L := by
        rw [padTo_length]
        omega
      have hpadr : padTo r v.length = r := padTo_eq_self (by omega)
      simp only [List.map_cons, hpadr, List.isEmpty_cons]
      refine Prod.ext ?_ ?_
      · simp only [List.cons.injEq, true_and]
        refine List.map_congr_left fun x hx => ?_
        have hx1 := hrs x hx
        rw [hlen, padTo_eq_self (by omega), padTo_eq_self (by omega)]
      · rw [hr]
        split
        · rfl
        · exact padTo_padTo _ _ (by rw [padTo_length]; omega)

theorem updateColWidths_length (cs : List ColDef) (vs : List Str) :
    (updateColWidths cs vs).length = cs.length := by
  induction cs generalizing vs with
  | nil => rfl
  | cons c cs ih => simp [updateColWidths, ih]

theorem padLoop_fst_length (rows : List (List Str)) (v : List Str) :
    (padLoop rows v).1.length = rows.length := by
  induction rows generalizing v with
  | nil => rfl
  | cons r rs ih =>
    simp only [padLoop]
    split <;> simp [ih]

/-- addRow on a uniform non-degenerate grid, in closed form. -/
theorem addRow_uniform_eq (t : Table) (ty : RowType) (values : List Str) (L : Nat)
    (h : uniformLen t.data L) (hnil : t.data = [] → L = 0) :
    t.addRow ty values =
      { t with
        rows := t.rows ++ [ty],
        cols := updateColWidths
          (t.cols ++ List.replicate
            ((if values.isEmpty && t.cols.isEmpty then [([] : Str)] else values).length -
              t.cols.length) defaultCol)
          (padTo (if values.isEmpty && t.cols.isEmpty then [([] : Str)] else values) L),
        data := t.data.map (fun r => padTo r
            (if values.isEmpty && t.cols.isEmpty then [([] : Str)] else values).length) ++
          [padTo (if values.isEmpty && t.cols.isEmpty then [([] : Str)] else values) L] } := by
  simp only [Table.addRow]
  rw [padLoop_uniform t.data _ L h]
  rcases ht : t.data with _ | ⟨r, rs⟩
  · simp [hnil ht, padTo_zero]
  · simp [ht]

/-! ### Claim C7 (amended theorem) -/

/-- C7 amended: addRow treats separator rows through the same path as data
    rows: the stored cell list is the values argument (replaced by one
    empty cell only when both the values and the column list are empty),
    padded with empty strings up to the common stored row length.  Parsers
    pass an empty values list, so parsed separator rows store one empty
    string per existing column, never a literally empty list once the table
    has a row or column. -/
theorem addRow_separator_stores_padded (t : Table) (values : List Str) (L : Nat)
    (h : uniformLen t.data L) (hnil : t.data = [] → L = 0) :
    (t.addRow RowType.Separator values).getRow t.data.length =
      (if values.isEmpty && t.cols.isEmpty then [([] : Str)] else values) ++
        List.replicate
          (L - (if values.isEmpty && t.cols.isEmpty then [([] : Str)] else values).length)
          ([] : Str) := by
  rw [addRow_uniform_eq t RowType.Separator values L h hnil]
  show (_ ++ [_]).getD _ _ = _
  rw [List.getD_append_right _ _ _ _ (by simp)]
  simp [padTo]

/-- C7 witness: on a two-row uniform table (common length 1) a separator
    appended with a one-cell values list stores exactly that list. -/
theorem addRow_separator_stores_padded_witness :
    uniformLen w1table.data 1 ∧
    (w1table.addRow RowType.Separator ["xy".toList]).getRow 2 = ["xy".toList] := by
  refine ⟨by decide, ?_⟩
  have h := addRow_separator_stores_padded w1table ["xy".toList] 1 (by decide) (by decide)
  simpa using h

/-! ### Structural invariant lemmas -/

theorem addRow_uniform_le (t : Table) (ty : RowType) (values : List Str) (L : Nat)
    (h : uniformLen t.data L) (hle : L ≤ t.cols.length) :
    ∃ M, uniformLen (t.addRow ty values).data M ∧ M ≤ (t.addRow ty values).cols.length := by
  rcases hd : t.data with _ | ⟨r0, rs0⟩
  · refine ⟨(if values.isEmpty && t.cols.isEmpty then [([] : Str)] else values).length, ?_, ?_⟩
    · intro r hr
      simp only [Table.addRow, hd, padLoop] at hr
      simp only [List.mem_append, List.mem_nil_iff, false_or, List.mem_singleton] at hr
      simp [hr]
    · simp [Table.addRow, hd, updateColWidths_length]
      omega
  · have hnil : t.data = [] → L = 0 := by rw [hd]; intro hc; cases hc
    rw [addRow_uniform_eq t ty values L h hnil]
    refine ⟨max L (if values.isEmpty && t.cols.isEmpty then [([] : Str)] else values).length,
      ?_, ?_⟩
    · intro r hr
      simp only [List.mem_append, List.mem_map, List.mem_singleton] at hr
      rcases hr with ⟨r0, hr0, rfl⟩ | rfl
      · rw [padTo_length, h r0 hr0]
      · rw [padTo_length]
        omega
    · simp [updateColWidths_length]
      omega

theorem addColumn_uniform_le (t : Table) (L : Nat)
    (h : uniformLen t.data L) (hle : L ≤ t.cols.length) :
    uniformLen t.addColumn.data (L + 1) ∧ L + 1 ≤ t.addColumn.cols.length := by
  constructor
  · intro r hr
    simp only [Table.addColumn, List.mem_map] at hr
    obtain ⟨r0, hr0, rfl⟩ := hr
    simp [h r0 hr0]
  · simp [Table.addColumn]
    omega

theorem setAt_rows (t : Table) (row col : Nat) (v : Str) :
    (t.setAt row col v).rows = t.rows := rfl

theorem setAt_cols_length (t : Table) (row col : Nat) (v : Str) :
    (t.setAt row col v).cols.length = t.cols.length := by
  simp only [Table.setAt]
  split
  · simp
  · split <;> simp

theorem setAt_data_shape (t : Table) (row col : Nat) (v : Str) :
    (t.setAt row col v).data = t.data.set row ((t.data.getD row []).set col v) := rfl

theorem setAt_preserves_inv {t : Table} (row col : Nat) (v : Str)
    (h : modelInvariant t) : modelInvariant (t.setAt row col v) := by
  obtain ⟨hcount, L, hL, hle⟩ := h
  refine ⟨by rw [setAt_data_shape, setAt_rows, List.length_set, hcount],
    L, ?_, by rw [setAt_cols_length]; exact hle⟩
  intro r hr
  rw [setAt_data_shape] at hr
  by_cases hlt : row < t.data.length
  · rcases List.mem_or_eq_of_mem_set hr with hmem | rfl
    · exact hL r hmem
    · rw [List.length_set, List.getD_eq_getElem _ _ hlt]
      exact hL _ (List.getElem_mem hlt)
  · rw [List.set_eq_of_length_le (Nat.le_of_not_lt hlt)] at hr
    exact hL r hr

theorem recalcColsAux_length (data : List (List Str)) (cols : List ColDef) (j : Nat) :
    (recalcColsAux data cols j).length = cols.length := by
  induction cols generalizing j with
  | nil => rfl
  | cons c cs ih => simp [recalcColsAux, ih]

theorem recalc_cols_length (t : Table) :
    t.recalculateColumnWidths.cols.length = t.cols.length := by
  simp only [Table.recalculateColumnWidths]
  split <;> simp [raiseWidthsTo3, recalcColsAux_length]

theorem recalc_rows (t : Table) : t.recalculateColumnWidths.rows = t.rows := rfl

theorem recalc_data (t : Table) : t.recalculateColumnWidths.data = t.data := rfl

theorem recalc_preserves_inv {t : Table} (h : modelInvariant t) :
    modelInvariant t.recalculateColumnWidths := by
  obtain ⟨hcount, L, hL, hle⟩ := h
  exact ⟨by rw [recalc_data, recalc_rows, hcount], L, by rw [recalc_data]; exact hL,
    by rw [recalc_cols_length]; exact hle⟩

theorem addRow_preserves_inv {t : Table} (ty : RowType) (values : List Str)
    (h : modelInvariant t) : modelInvariant (t.addRow ty values) := by
  obtain ⟨hcount, L, hL, hle⟩ := h
  obtain ⟨M, hM, hMle⟩ := addRow_uniform_le t ty values L hL hle
  refine ⟨?_, M, hM, hMle⟩
  simp [Table.addRow, padLoop_fst_length, hcount]

theorem addColumn_preserves_inv {t : Table} (h : modelInvariant t) :
    modelInvariant t.addColumn := by
  obtain ⟨hcount, L, hL, hle⟩ := h
  obtain ⟨hu, hul⟩ := addColumn_uniform_le t L hL hle
  exact ⟨by simp [Table.addColumn, hcount], L + 1, hu, hul⟩

theorem swap_preserves_inv {t : Table} (sc tc : Nat) (h : modelInvariant t) :
    modelInvariant (t.swapColumns sc tc) := by
  obtain ⟨hcount, L, hL, hle⟩ := h
  simp only [Table.swapColumns]
  apply recalc_preserves_inv
  have hfold : ∀ (idxs : List Nat) (t1 : Table), modelInvariant t1 →
      modelInvariant (idxs.foldl (fun s i =>
        (s.setAt i tc (s.getAt i sc)).setAt i sc (s.getAt i tc)) t1) := by
    intro idxs
    induction idxs with
    | nil => exact fun t1 h1 => h1
    | cons i is ih =>
      exact fun t1 h1 =>
        ih _ (setAt_preserves_inv _ _ _ (setAt_preserves_inv _ _ _ h1))
  exact hfold _ _ ⟨hcount, L, hL, by simpa using hle⟩

theorem mdApplyAligns_length_ge (parts : List Str) (cols : List ColDef) (i : Nat) :
    cols.length ≤ (mdApplyAligns cols i parts).length := by
  induction parts generalizing cols i with
  | nil => exact Nat.le_refl _
  | cons p ps ih =>
    refine Nat.le_trans ?_ (ih (mdApplyAlignPart cols i p) (i + 1))
    simp only [mdApplyAlignPart]
    split
    · exact Nat.le_refl _
    · split
      · simp
      · simp

theorem mdLineStep_preserves_inv {t : Table} (s : Str) (h : modelInvariant t) :
    modelInvariant (mdLineStep t s) := by
  simp only [mdLineStep]
  split
  · simp only [mdSeparatorStep]
    obtain ⟨hcount, L, hL, hle⟩ := addRow_preserves_inv RowType.Separator [] h
    exact ⟨hcount, L, hL, Nat.le_trans hle (mdApplyAligns_length_ge _ _ _)⟩
  · exact addRow_preserves_inv _ _ h

theorem orgLineStep_preserves_inv {t : Table} (s : Str) (h : modelInvariant t) :
    modelInvariant (orgLineStep t s) := by
  simp only [orgLineStep]
  split
  · exact addRow_preserves_inv _ _ h
  · exact addRow_preserves_inv _ _ h

theorem emptyTable_inv : modelInvariant emptyTable :=
  ⟨rfl, 0, fun r hr => absurd hr (List.not_mem_nil r), Nat.le_refl 0⟩

theorem md_parse_inv (s : Str) (t : Table) (hp : MarkdownParser.parse s = some t) :
    modelInvariant t := by
  simp only [MarkdownParser.parse] at hp
  split at hp
  · cases hp
  · have hfold : ∀ (lines : List Str) (t0 : Table), modelInvariant t0 →
        modelInvariant (lines.foldl mdLineStep t0) := by
      intro lines
      induction lines with
      | nil => intro t0 h0; exact h0
      | cons l ls ih =>
        intro t0 h0
        exact ih _ (mdLineStep_preserves_inv l h0)
    cases hp
    exact recalc_preserves_inv (hfold _ _ emptyTable_inv)

theorem org_parse_inv (s : Str) (t : Table) (hp : OrgParser.parse s = some t) :
    modelInvariant t := by
  simp only [OrgParser.parse] at hp
  split at hp
  · cases hp
  · have hfold : ∀ (lines : List Str) (t0 : Table), modelInvariant t0 →
        modelInvariant (lines.foldl orgLineStep t0) := by
      intro lines
      induction lines with
      | nil => intro t0 h0; exact h0
      | cons l ls ih =>
        intro t0 h0
        exact ih _ (orgLineStep_preserves_inv l h0)
    cases hp
    exact recalc_preserves_inv (hfold _ _ emptyTable_inv)

/-! ### Maximum-fold lemmas for the width computations -/

theorem le_foldl_max (a : Nat) (l : List Nat) : a ≤ l.foldl max a := by
  induction l generalizing a with
  | nil => exact Nat.le_refl a
  | cons x l ih => exact Nat.le_trans (Nat.le_max_left a x) (ih (max a x))

theorem mem_le_foldl_max {x : Nat} (a : Nat) (l : List Nat) (hx : x ∈ l) :
    x ≤ l.foldl max a := by
  induction l generalizing a with
  | nil => cases hx
  | cons y l ih =>
    rcases List.mem_cons.mp hx with rfl | hmem
    · exact Nat.le_trans (Nat.le_max_right a x) (le_foldl_max _ l)
    · exact ih _ hmem

theorem foldl_max_le {b : Nat} (a : Nat) (l : List Nat) (ha : a ≤ b)
    (h : ∀ x ∈ l, x ≤ b) : l.foldl max a ≤ b := by
  induction l generalizing a with
  | nil => exact ha
  | cons x l ih =>
    exact ih (max a x) (Nat.max_le.mpr ⟨ha, h x (List.mem_cons_self _ _)⟩)
      fun y hy => h y (List.mem_cons_of_mem _ hy)

theorem foldl_max_eq_or_mem (a : Nat) (l : List Nat) :
    l.foldl max a = a ∨ l.foldl max a ∈ l := by
  induction l generalizing a with
  | nil => exact Or.inl rfl
  | cons x l ih =>
    rcases ih (max a x) with h | h
    · rcases max_choice a x with hm | hm
      · exact Or.inl (by rw [List.foldl_cons, h, hm])
      · exact Or.inr (by rw [List.foldl_cons, h, hm]; exact List.mem_cons_self _ _)
    · exact Or.inr (List.mem_cons_of_mem _ h)

theorem colMaxWidth_eq (data : List (List Str)) (col : Nat) :
    colMaxWidth data col = (colCellWidths data col).foldl max 0 := by
  rw [colCellWidths, List.foldl_map]
  rfl

theorem colDataMax_eq_colMaxWidth (data : List (List Str)) (j : Nat) :
    colDataMax data j = colMaxWidth data j := by
  suffices h : ∀ a : Nat,
      data.foldl (fun m r => if j < r.length then max m (getStringWidth (r.getD j [])) else m) a =
      data.foldl (fun m r => max m (getStringWidth (r.getD j []))) a from h 0
  induction data with
  | nil => intro a; rfl
  | cons r rs ih =>
    intro a
    simp only [List.foldl_cons]
    by_cases hj : j < r.length
    · rw [if_pos hj, ih]
    · rw [if_neg hj, List.getD_eq_default _ _ (Nat.le_of_not_lt hj)]
      have : getStringWidth [] = 0 := rfl
      rw [this, Nat.max_zero, ih]

theorem recalcColsAux_getD (data : List (List Str)) (cols : List ColDef) (k j : Nat)
    (hj : j < cols.length) :
    (recalcColsAux data cols k).getD j defaultCol =
      { cols.getD j defaultCol with width := colDataMax data (k + j) } := by
  induction cols generalizing k j with
  | nil => cases hj
  | cons c cs ih =>
    cases j with
    | zero => rfl
    | succ j =>
      have hj2 : j < cs.length := by simpa using hj
      simp only [recalcColsAux, List.getD_cons_succ]
      rw [ih (k + 1) j hj2]
      have : k + 1 + j = k + (j + 1) := by omega
      rw [this]

theorem raiseWidthsTo3_getD (cols : List ColDef) (j : Nat) (hj : j < cols.length) :
    (raiseWidthsTo3 cols).getD j defaultCol =
      { cols.getD j defaultCol with width := max (cols.getD j defaultCol).width 3 } := by
  have hj2 : j < (raiseWidthsTo3 cols).length := by simpa [raiseWidthsTo3] using hj
  rw [List.getD_eq_getElem _ _ hj2, List.getD_eq_getElem _ _ hj]
  simp [raiseWidthsTo3]

theorem recalc_width_getD (t : Table) (j : Nat) (hj : j < t.cols.length) :
    (t.recalculateColumnWidths.cols.getD j defaultCol).width =
      if hasSeparatorRow t then max (colMaxWidth t.data j) 3 else colMaxWidth t.data j := by
  simp only [Table.recalculateColumnWidths]
  split
  · rw [raiseWidthsTo3_getD _ _ (by rw [recalcColsAux_length]; exact hj),
      recalcColsAux_getD _ _ _ _ hj, colDataMax_eq_colMaxWidth]
    simp
  · rw [recalcColsAux_getD _ _ _ _ hj, colDataMax_eq_colMaxWidth]
    simp

/-- The width bookkeeping of setAt against a full rescan, abstractly: ws is
    the column's cell-width list, oldW the replaced entry, W the consistent
    column width, cm the old column maximum and Mx the new one.  The two
    sides agree except when there is no separator row, the rescan branch
    fires and the new maximum is below the unconditional clamp of 3. -/
theorem setAt_width_core (sep : Bool) (ws : List Nat) (row newW oldW W cm Mx : Nat)
    (hrow : row < ws.length) (hold : ws[row] = oldW)
    (hcm : cm = ws.foldl max 0) (hW : W = if sep then max cm 3 else cm)
    (hMx : Mx = (ws.set row newW).foldl max 0) :
    (if W < newW then newW
     else if oldW = W ∧ newW < oldW then max Mx 3
     else W) =
    (if sep = false ∧ oldW = W ∧ newW < W ∧ Mx < 3 then 3
     else if sep then max Mx 3 else Mx) := by
  have hcmW : cm ≤ W := by
    rw [hW]
    cases sep with
    | false => simp
    | true => simp [Nat.le_max_left]
  have helem : ∀ x ∈ ws, x ≤ cm := fun x hx => hcm ▸ mem_le_foldl_max 0 ws hx
  have hold_le : oldW ≤ cm := hold ▸ helem _ (List.getElem_mem hrow)
  have hrow2 : row < (ws.set row newW).length := by simpa using hrow
  have hnew_mem : newW ∈ ws.set row newW :=
    List.mem_iff_getElem.mpr ⟨row, hrow2, List.getElem_set_self _⟩
  have hset_le : ∀ b, cm ≤ b → newW ≤ b → Mx ≤ b := by
    intro b hcb hnb
    rw [hMx]
    refine foldl_max_le 0 _ (Nat.zero_le b) fun x hx => ?_
    rcases List.mem_or_eq_of_mem_set hx with hmem | rfl
    · exact Nat.le_trans (helem x hmem) hcb
    · exact hnb
  have hnew_le_Mx : newW ≤ Mx := hMx ▸ mem_le_foldl_max 0 _ hnew_mem
  by_cases hA : W < newW
  · rw [if_pos hA]
    have hcond : ¬(sep = false ∧ oldW = W ∧ newW < W ∧ Mx < 3) := by
      rintro ⟨-, -, h3, -⟩
      omega
    rw [if_neg hcond]
    have hMxn : Mx = newW :=
      Nat.le_antisymm (hset_le newW (by omega) (Nat.le_refl _)) hnew_le_Mx
    cases hsep : sep with
    | false => rw [if_neg (by simp), hMxn]
    | true =>
      rw [if_pos rfl, hMxn]
      have hW3 : 3 ≤ W := by
        rw [hW, hsep]
        simp [Nat.le_max_right]
      omega
  · by_cases hB : oldW = W ∧ newW < oldW
    · rw [if_neg hA, if_pos hB]
      obtain ⟨hB1, hB2⟩ := hB
      have hnewW : newW < W := by omega
      cases hsep : sep with
      | true =>
        rw [if_neg (by simp), if_pos rfl]
      | false =>
        by_cases hMx3 : Mx < 3
        · rw [if_pos ⟨rfl, hB1, hnewW, hMx3⟩]
          omega
        · rw [if_neg (by rintro ⟨-, -, -, h⟩; exact hMx3 h), if_neg (by simp)]
          omega
    · rw [if_neg hA, if_neg hB]
      have hcond : ¬(sep = false ∧ oldW = W ∧ newW < W ∧ Mx < 3) := by
        rintro ⟨-, h2, h3, -⟩
        exact hB ⟨h2, by omega⟩
      rw [if_neg hcond]
      have hnewle : newW ≤ W := Nat.le_of_not_lt hA
      by_cases hEq : newW = W
      · have hMxW : Mx = W :=
          Nat.le_antisymm (hset_le W hcmW (by omega))
            (by rw [← hEq]; exact hnew_le_Mx)
        cases hsep : sep with
        | false => rw [if_neg (by simp), hMxW]
        | true =>
          rw [if_pos rfl, hMxW]
          have hW3 : 3 ≤ W := by
            rw [hW, hsep]
            simp [Nat.le_max_right]
          omega
      · have hlt : newW < W := by omega
        have holdne : oldW ≠ W := fun h => hB ⟨h, by omega⟩
        have hold_lt : oldW < W := by
          have := Nat.le_trans hold_le hcmW
          omega
        have hachieve : 0 < cm → cm ∈ ws := by
          intro hpos
          rcases foldl_max_eq_or_mem 0 ws with h0 | hmem
          · omega
          · exact hcm ▸ hmem
        have hMx_of_cmW : cm = W → Mx = W := by
          intro hWcm
          obtain ⟨i, hi, hie⟩ := List.mem_iff_getElem.mp (hachieve (by omega))
          have hine : i ≠ row := by
            intro h
            subst h
            have holdcm : oldW = cm := hold.symm.trans hie
            omega
          have hWin : W ∈ ws.set row newW := by
            have hi2 : i < (ws.set row newW).length := by simpa using hi
            have := List.getElem_set_ne (l := ws) (a := newW) (Ne.symm hine) hi2
            rw [hie, hWcm] at this
            exact this ▸ List.getElem_mem hi2
          exact Nat.le_antisymm (hset_le W hcmW (by omega))
            (hMx ▸ mem_le_foldl_max 0 _ hWin)
        cases hsep : sep with
        | false =>
          rw [if_neg (by simp)]
          have hWcm : W = cm := by rw [hW, hsep]; simp
          exact (hMx_of_cmW hWcm.symm).symm
        | true =>
          rw [if_pos rfl]
          have hWmax : W = max cm 3 := by rw [hW, hsep]; simp
          by_cases hcm3 : 3 ≤ cm
          · have hWcm : W = cm := by omega
            have hMxW : Mx = W := hMx_of_cmW hWcm.symm
            rw [hMxW]
            omega
          · have hMxlt : Mx ≤ 2 := hset_le 2 (by omega) (by omega)
            omega

/-! ### Claim C1 (amended theorem) -/

/-- C1 amended: on a width-consistent table with in-range indices, the
    column width after setAt equals the width a subsequent
    recalculateColumnWidths would compute, except in one case: with no
    separator row present, when the rescan branch fires (the old value was
    the column maximum and the new one is narrower) and the rescanned
    maximum is below 3, setAt stores the unconditional clamp 3 while the
    full rescan stores the smaller maximum — setAt applies the minimum of 3
    in its rescan branch regardless of separator presence. -/
theorem setAt_width_vs_recalc (t : Table) (row col : Nat) (value : Str)
    (hcons : consistentWidths t) (hrow : row < t.data.length)
    (hcol : col < (t.data.getD row []).length) (hcolc : col < t.cols.length) :
    ((t.setAt row col value).cols.getD col defaultCol).width =
      if hasSeparatorRow t = false ∧
          getStringWidth ((t.data.getD row []).getD col []) =
            (t.cols.getD col defaultCol).width ∧
          getStringWidth value < (t.cols.getD col defaultCol).width ∧
          colMaxWidth (t.setAt row col value).data col < 3
        then 3
        else ((t.setAt row col value).recalculateColumnWidths.cols.getD col
          defaultCol).width := by
  have hgetset : ∀ x : ColDef, (t.cols.set col x).getD col defaultCol = x := by
    intro x
    rw [List.getD_eq_getElem _ _ (by simpa using hcolc)]
    exact List.getElem_set_self _
  have hdata1 : (t.setAt row col value).data =
      t.data.set row ((t.data.getD row []).set col value) := rfl
  have hafter : ((t.setAt row col value).cols.getD col defaultCol).width =
      if (t.cols.getD col defaultCol).width < getStringWidth value then
        getStringWidth value
      else if getStringWidth ((t.data.getD row []).getD col []) =
            (t.cols.getD col defaultCol).width ∧
          getStringWidth value < getStringWidth ((t.data.getD row []).getD col [])
        then max (colMaxWidth (t.data.set row ((t.data.getD row []).set col value)) col) 3
      else (t.cols.getD col defaultCol).width := by
    dsimp only [Table.setAt]
    by_cases h1 : (t.cols.getD col defaultCol).width < getStringWidth value
    · rw [if_pos h1, hgetset, if_pos h1]
    · rw [if_neg h1]
      by_cases h2 : getStringWidth ((t.data.getD row []).getD col []) =
          (t.cols.getD col defaultCol).width ∧
          getStringWidth value < getStringWidth ((t.data.getD row []).getD col [])
      · rw [if_pos h2, hgetset, if_neg h1, if_pos h2]
      · rw [if_neg h2, if_neg h1, if_neg h2]
  have hrecalc : ((t.setAt row col value).recalculateColumnWidths.cols.getD col
      defaultCol).width =
      if hasSeparatorRow t then
        max (colMaxWidth (t.data.set row ((t.data.getD row []).set col value)) col) 3
      else colMaxWidth (t.data.set row ((t.data.getD row []).set col value)) col := by
    rw [recalc_width_getD _ col (by rw [setAt_cols_length]; exact hcolc)]
    rfl
  have hws_len : row < (colCellWidths t.data col).length := by
    simpa [colCellWidths] using hrow
  have hold_elem : (colCellWidths t.data col)[row] =
      getStringWidth ((t.data.getD row []).getD col []) := by
    simp only [colCellWidths]
    rw [List.getElem_map, List.getD_eq_getElem _ _ hrow]
  have hval : ((t.data.getD row []).set col value).getD col [] = value := by
    rw [List.getD_eq_getElem _ _ (by simpa using hcol)]
    exact List.getElem_set_self _
  have hcw_set : colCellWidths (t.data.set row ((t.data.getD row []).set col value)) col =
      (colCellWidths t.data col).set row
        (getStringWidth (((t.data.getD row []).set col value).getD col [])) := by
    simp only [colCellWidths]
    rw [List.map_set]
  have hMx_eq : colMaxWidth (t.data.set row ((t.data.getD row []).set col value)) col =
      ((colCellWidths t.data col).set row (getStringWidth value)).foldl max 0 := by
    rw [colMaxWidth_eq, hcw_set, hval]
  have hWconsist : (t.cols.getD col defaultCol).width =
      if hasSeparatorRow t then max ((colCellWidths t.data col).foldl max 0) 3
      else (colCellWidths t.data col).foldl max 0 := by
    have h2 := recalc_width_getD t col hcolc
    rw [hcons] at h2
    rw [h2, colMaxWidth_eq]
  rw [hafter, hrecalc, hdata1, hMx_eq]
  exact setAt_width_core (hasSeparatorRow t) (colCellWidths t.data col) row
    (getStringWidth value) (getStringWidth ((t.data.getD row []).getD col []))
    ((t.cols.getD col defaultCol).width) ((colCellWidths t.data col).foldl max 0)
    (((colCellWidths t.data col).set row (getStringWidth value)).foldl max 0)
    hws_len hold_elem rfl hWconsist rfl

/-- C1 witness: on a consistent two-row table with a separator row the
    incrementally updated width matches the recalculated one. -/
theorem setAt_width_vs_recalc_witness :
    consistentWidths w1table ∧
    ((w1table.setAt 0 0 "a".toList).cols.getD 0 defaultCol).width =
      ((w1table.setAt 0 0 "a".toList).recalculateColumnWidths.cols.getD 0
        defaultCol).width := by
  refine ⟨by decide, ?_⟩
  have h := setAt_width_vs_recalc w1table 0 0 "a".toList (by decide) (by decide)
    (by decide) (by decide)
  rw [h, if_neg (by decide)]

/-! ### Claim C3 (amended theorem) -/

/-- C3 amended: every table reachable through the public operations has one
    stored cell list per row descriptor and all stored cell lists (data and
    separator rows alike) share one common length that never exceeds the
    column count; the common length can be smaller than cols.length (see
    the counterexample), so data rows are mutually rectangular but not
    always exactly cols.length wide. -/
theorem reachable_rows_uniform (t : Table) (h : Reachable t) : modelInvariant t := by
  induction h with
  | empty => exact emptyTable_inv
  | parseMd s t hp => exact md_parse_inv s t hp
  | parseOrg s t hp => exact org_parse_inv s t hp
  | addRow t ty vs _ ih => exact addRow_preserves_inv ty vs ih
  | addColumn t _ ih => exact addColumn_preserves_inv ih
  | setAt t r c v _ ih => exact setAt_preserves_inv r c v ih
  | swap t sc tc _ ih => exact swap_preserves_inv sc tc ih
  | recalc t _ ih => exact recalc_preserves_inv ih

/-- C3 witness: the invariant instantiated on a concrete reachable table. -/
theorem reachable_rows_uniform_witness : modelInvariant emptyTable :=
  reachable_rows_uniform emptyTable Reachable.empty

/-! ### Claim C10 -/

/-- C10: any sequence of addRow and addColumn operations keeps all stored
    cell lists (separator rows included) at one common length bounded by
    cols.length; and after parsing the ragged Markdown input the common
    length 1 is strictly below the column count 2, because separator
    alignment extraction pushes column definitions without touching the
    stored rows. -/
theorem addRow_addColumn_uniform :
    (∀ (ops : List TableOp) (t : Table) (L : Nat),
      uniformLen t.data L → L ≤ t.cols.length →
      ∃ M, uniformLen (ops.foldl applyOp t).data M ∧
        M ≤ (ops.foldl applyOp t).cols.length) ∧
    uniformLen ((MarkdownParser.parse c3input).getD emptyTable).data 1 ∧
    1 < ((MarkdownParser.parse c3input).getD emptyTable).cols.length := by
  refine ⟨?_, by decide, by decide⟩
  intro ops
  induction ops with
  | nil => exact fun t L h hle => ⟨L, h, hle⟩
  | cons op ops ih =>
    intro t L h hle
    simp only [List.foldl_cons]
    cases op with
    | addRowOp ty vs =>
      obtain ⟨M, hM, hMle⟩ := addRow_uniform_le t ty vs L h hle
      exact ih _ M hM hMle
    | addColumnOp =>
      obtain ⟨hu, hul⟩ := addColumn_uniform_le t L h hle
      exact ih _ (L + 1) hu hul

/-- C10 witness: the preservation statement applied to a concrete table and
    operation list. -/
theorem addRow_addColumn_uniform_witness :
    ∃ M, uniformLen (([TableOp.addRowOp RowType.Data ["a".toList],
        TableOp.addColumnOp].foldl applyOp emptyTable)).data M ∧
      M ≤ (([TableOp.addRowOp RowType.Data ["a".toList],
        TableOp.addColumnOp].foldl applyOp emptyTable)).cols.length :=
  addRow_addColumn_uniform.1 [TableOp.addRowOp RowType.Data ["a".toList],
    TableOp.addColumnOp] emptyTable 0 (by decide) (by decide)

/-! ### Claim C2 -/

/-- C2: getStringWidth does not operate on code points: it walks UTF-16 code
    units, so the supplementary-plane wide ranges of isWideCharacter can
    never match a charCodeAt result.  The grinning-face emoji U+1F600 is one
    non-wide code point, so the specified sum is 1, but the code counts its
    two surrogate units and returns 2.  (For a wide supplementary character
    such as U+20000 the two unit widths coincidentally also add up to the
    specified 2.) -/
theorem getStringWidth_codeunit_bug :
    getStringWidth [Char.ofNat 0x1F600] = 2 ∧
    codePointWidth [0x1F600] = 1 ∧
    isWideCharacter 0x1F600 = false ∧
    getStringWidth [Char.ofNat 0x20000] = 2 ∧
    codePointWidth [0x20000] = 2 := by decide

/-! ### Claim C8 -/

/-- C8: in both dialects parse returns none exactly on the empty input; on
    any non-empty input it returns a table. -/
theorem parse_none_iff_empty (s : Str) :
    ((MarkdownParser.parse s = none) ↔ s = []) ∧
    ((OrgParser.parse s = none) ↔ s = []) := by
  unfold MarkdownParser.parse OrgParser.parse
  rcases s with _ | ⟨c, cs⟩ <;> simp [List.isEmpty]

/-! ### Claim C9 -/

/-- C9: the incomplete Markdown line bar-x-bar-y parses to one data row
    with exactly the two cells x and y. -/
theorem parse_incomplete_line :
    MarkdownParser.parse "|x|y".toList =
      some ⟨0, [RowType.Data], [⟨Alignment.Left, 1⟩, ⟨Alignment.Left, 1⟩],
        [["x".toList, "y".toList]]⟩ := by decide

/-! ### Claim C6 -/

/-- C6 counterexample: the Org stringifier performs no minimum-width raise;
    on a separator-only table of column width 0 it renders a two-dash
    separator cell, while rendering the raised table gives five dashes. -/
theorem org_stringify_no_min3_cx :
    OrgStringifier.stringify c6table = "|--|".toList ∧
    OrgStringifier.stringify { c6table with cols := raiseWidthsTo3 c6table.cols } =
      "|-----|".toList ∧
    OrgStringifier.stringify c6table ≠
      OrgStringifier.stringify { c6table with cols := raiseWidthsTo3 c6table.cols } := by
  decide

/-- C6 amended: only the Markdown stringifier raises every column width to
    at least 3 when a separator row is present; its output on any table
    with a separator row equals its output on the pre-raised table. -/
theorem md_stringify_min3 (t : Table) (h : hasSeparatorRow t = true) :
    MarkdownStringifier.stringify t =
      MarkdownStringifier.stringify { t with cols := raiseWidthsTo3 t.cols } := by
  have hidem : raiseWidthsTo3 (raiseWidthsTo3 t.cols) = raiseWidthsTo3 t.cols := by
    simp [raiseWidthsTo3, List.map_map, Function.comp, max_assoc]
  have h2 : hasSeparatorRow { t with cols := raiseWidthsTo3 t.cols } = true := h
  unfold MarkdownStringifier.stringify
  rw [if_pos h, if_pos h2, hidem]

/-- C6 witness: the amended theorem applied to the concrete separator-only
    table. -/
theorem md_stringify_min3_witness :
    MarkdownStringifier.stringify c6table =
      MarkdownStringifier.stringify { c6table with cols := raiseWidthsTo3 c6table.cols } :=
  md_stringify_min3 c6table (by decide)

/-! ### Claim C7 (counterexample) -/

/-- C7 counterexample: addRow does not store an empty cell list for a
    separator row: on an empty table it stores the synthesized single empty
    cell, after a data row it stores one empty string per existing cell,
    and a non-empty values argument is stored as given. -/
theorem addRow_separator_cells_cx :
    (emptyTable.addRow RowType.Separator []).getRow 0 = [([] : Str)] ∧
    (emptyTable.addRow RowType.Separator []).getRow 0 ≠ [] ∧
    ((emptyTable.addRow RowType.Data ["ab".toList, "c".toList]).addRow
        RowType.Separator []).getRow 1 = [([] : Str), ([] : Str)] ∧
    (emptyTable.addRow RowType.Separator ["ab".toList]).getRow 0 = ["ab".toList] := by
  decide

/-! ### Claim C1 (counterexample) -/

/-- C1 counterexample: on a consistent one-column table with no separator
    row, overwriting the widest cell with a narrower one makes the rescan
    branch of setAt clamp the width at 3, while a full
    recalculateColumnWidths computes 1. -/
theorem setAt_recalc_disagree_cx :
    consistentWidths c1table ∧
    hasSeparatorRow c1table = false ∧
    ((c1table.setAt 0 0 "a".toList).cols.getD 0 defaultCol).width = 3 ∧
    (((c1table.setAt 0 0 "a".toList).recalculateColumnWidths).cols.getD 0
      defaultCol).width = 1 := by decide

/-! ### Claim C4 (counterexample) -/

/-- C4 counterexample: on a one-by-one table the claim predicts that the
    very first application of nextCell from the first cell returns none;
    the code instead falls back to the first data position of the line and
    returns the same cell again. -/
theorem nextCell_no_none_cx :
    cellPos c4table 0 0 = ⟨0, 2⟩ ∧
    nextCell c4table none (cellPos c4table 0 0) = some ⟨0, 2⟩ ∧
    nextCell c4table none (cellPos c4table 0 0) ≠ none := by decide

/-! ### Claim C3 (counterexample) -/

/-- C3 counterexample: parsing a data row followed by a wider separator row
    yields a reachable table whose data row keeps 1 cell while the column
    count is 2, so a data row's cell count can differ from cols.length. -/
theorem rectangular_invariant_cx :
    MarkdownParser.parse c3input ≠ none ∧
    ((MarkdownParser.parse c3input).getD emptyTable).rows.getD 0 RowType.Unknown =
      RowType.Data ∧
    (((MarkdownParser.parse c3input).getD emptyTable).data.getD 0 []).length = 1 ∧
    ((MarkdownParser.parse c3input).getD emptyTable).cols.length = 2 := by decide

/-! ### Claim C5 (counterexample) -/

/-- C5 counterexample: a rectangular table whose column width is wider than
    its content does not round-trip in either dialect: re-parsing
    recalculates the width down, so the second stringify is narrower. -/
theorem roundtrip_cx :
    MarkdownStringifier.stringify c5table = "| a     |".toList ∧
    (MarkdownParser.parse (MarkdownStringifier.stringify c5table)).map
      MarkdownStringifier.stringify = some "| a |".toList ∧
    (MarkdownParser.parse (MarkdownStringifier.stringify c5table)).map
        MarkdownStringifier.stringify ≠
      some (MarkdownStringifier.stringify c5table) ∧
    (OrgParser.parse (OrgStringifier.stringify c5table)).map OrgStringifier.stringify ≠
      some (OrgStringifier.stringify c5table) := by decide

/-! ### Navigator lemmas -/

theorem cellStartChar_ge (cp : Nat) (cs : List ColDef) (j : Nat) :
    cp + 1 ≤ cellStartChar cp cs j := by
  induction cs generalizing cp j with
  | nil => simp [cellStartChar]
  | cons c cs ih =>
    cases j with
    | zero => simp [cellStartChar]
    | succ j =>
      have := ih (cp + 1 + 1 + c.width + 1) j
      simp only [cellStartChar]
      omega

theorem cellStartChar_lt (cp : Nat) (cs : List ColDef) (j1 j2 : Nat) (h12 : j1 < j2)
    (h2 : j2 < cs.length) :
    cellStartChar cp cs j1 + (cs.getD j1 defaultCol).width < cellStartChar cp cs j2 := by
  induction cs generalizing cp j1 j2 with
  | nil => simp at h2
  | cons c cs ih =>
    cases j1 with
    | zero =>
      cases j2 with
      | zero => omega
      | succ j2 =>
        have hge := cellStartChar_ge (cp + 1 + 1 + c.width + 1) cs j2
        simp only [cellStartChar, List.getD_cons_zero]
        omega
    | succ j1 =>
      cases j2 with
      | zero => omega
      | succ j2 =>
        have h2b : j2 < cs.length := by simpa using h2
        have := ih (cp + 1 + 1 + c.width + 1) j1 j2 (by omega) h2b
        simpa [cellStartChar, List.getD_cons_succ] using this

theorem fallbackRowPositions_length (L cp : Nat) (cs : List ColDef) :
    (fallbackRowPositions L cp cs).length = cs.length := by
  induction cs generalizing cp with
  | nil => rfl
  | cons c cs ih => simp [fallbackRowPositions, ih]

theorem fallbackRowPositions_getElem (L cp : Nat) (cs : List ColDef) (j : Nat)
    (hj : j < (fallbackRowPositions L cp cs).length) :
    (fallbackRowPositions L cp cs)[j] =
      ⟨⟨⟨L, cellStartChar cp cs j⟩,
        ⟨L, cellStartChar cp cs j + (cs.getD j defaultCol).width⟩⟩, false⟩ := by
  induction cs generalizing cp j with
  | nil => simp [fallbackRowPositions] at hj
  | cons c cs ih =>
    cases j with
    | zero => rfl
    | succ j =>
      have hj2 : j < (fallbackRowPositions L (cp + 1 + 1 + c.width + 1) cs).length := by
        simpa [fallbackRowPositions] using hj
      simp only [fallbackRowPositions, List.getElem_cons_succ, cellStartChar,
        List.getD_cons_succ]
      exact ih (cp + 1 + 1 + c.width + 1) j hj2

theorem bjp_data_rows (t : Table) (N : Nat)
    (hrows : t.rows = List.replicate N RowType.Data) :
    buildJumpPositions t none = (navBlocks t N).flatten := by
  have hstep : ∀ (l : List (Nat × RowType)) (acc : List JumpPos),
      (∀ p ∈ l, p.2 = RowType.Data) →
      l.foldl (bjpStep t none) acc =
        acc ++ (l.map fun p => fallbackRowPositions (t.startLine + p.1) 1 t.cols).flatten := by
    intro l
    induction l with
    | nil => intro acc _; simp
    | cons p ps ih =>
      intro acc hall
      obtain ⟨i, ty⟩ := p
      have hty : ty = RowType.Data := hall _ (List.mem_cons_self _ _)
      subst hty
      rw [List.foldl_cons, ih _ (fun q hq => hall q (List.mem_cons_of_mem _ hq))]
      show bjpStep t none acc (i, RowType.Data) ++ _ = _
      simp [bjpStep, List.append_assoc]
  have hall : ∀ p ∈ t.rows.enum, p.2 = RowType.Data := by
    intro p hp
    have h1 := List.mem_enum_iff_getElem?.mp hp
    rw [hrows, List.getElem?_replicate] at h1
    split at h1
    · exact (Option.some_inj.mp h1).symm
    · cases h1
  rw [buildJumpPositions, hstep _ _ hall, List.nil_append, navBlocks]
  have h2 : t.rows.enum.map (fun p => fallbackRowPositions (t.startLine + p.1) 1 t.cols) =
      (t.rows.enum.map Prod.fst).map
        (fun i => fallbackRowPositions (t.startLine + i) 1 t.cols) := by
    rw [List.map_map]
    rfl
  rw [h2, List.enum_map_fst, hrows, List.length_replicate]

theorem navBlocks_length (t : Table) (N : Nat) : (navBlocks t N).length = N := by
  simp [navBlocks]

theorem navBlocks_getElem (t : Table) (N i : Nat) (hi : i < (navBlocks t N).length) :
    (navBlocks t N)[i] = fallbackRowPositions (t.startLine + i) 1 t.cols := by
  have hi2 : i < N := by simpa [navBlocks] using hi
  simp [navBlocks]

theorem flatten_length_uniform (L : List (List JumpPos)) (M : Nat)
    (h : ∀ b ∈ L, b.length = M) : L.flatten.length = L.length * M := by
  induction L with
  | nil => simp
  | cons b bs ih =>
    simp only [List.flatten_cons, List.length_append, List.length_cons]
    rw [ih (fun x hx => h x (List.mem_cons_of_mem _ hx)), h b (List.mem_cons_self _ _)]
    ring

theorem flatten_getElem_uniform (L : List (List JumpPos)) (M : Nat)
    (h : ∀ b ∈ L, b.length = M) (i j : Nat) (hi : i < L.length) (hj : j < M)
    (hji : j < L[i].length)
    (hidx : i * M + j < L.flatten.length) :
    L.flatten[i * M + j] = L[i][j] := by
  induction L generalizing i with
  | nil => cases hi
  | cons b bs ih =>
    have hb : b.length = M := h b (List.mem_cons_self _ _)
    have hbs : ∀ x ∈ bs, x.length = M := fun x hx => h x (List.mem_cons_of_mem _ hx)
    cases i with
    | zero =>
      have h0 : 0 * M + j = j := by ring
      simp only [List.flatten_cons, List.getElem_cons_zero, h0]
      rw [List.getElem_append_left (show j < b.length by omega)]
    | succ i =>
      have hi2 : i < bs.length := by simpa using hi
      have hidx2 : i * M + j < bs.flatten.length := by
        rw [flatten_length_uniform bs M hbs]
        calc i * M + j < i * M + M := by omega
        _ = (i + 1) * M := by ring
        _ ≤ bs.length * M := Nat.mul_le_mul_right M hi2
      have hsucc : (i + 1) * M = i * M + M := by ring
      have harith : (i + 1) * M + j - b.length = i * M + j := by omega
      simp only [List.flatten_cons, List.getElem_cons_succ]
      rw [List.getElem_append_right (show b.length ≤ (i + 1) * M + j by omega)]
      simp only [harith]
      exact ih hbs i hi2 hji hidx2

theorem flat_lt_decompose (M q r i j : Nat) (hr : r < M) (hj : j < M)
    (hl : q * M + r < i * M + j) : q < i ∨ (q = i ∧ r < j) := by
  rcases Nat.lt_trichotomy q i with h | h | h
  · exact Or.inl h
  · subst h
    exact Or.inr ⟨rfl, by omega⟩
  · exfalso
    have h2 : (i + 1) * M ≤ q * M := Nat.mul_le_mul_right M h
    have h4 : (i + 1) * M = i * M + M := Nat.succ_mul i M
    omega

theorem findIdx?_eq_some_of (l : List JumpPos) (p : JumpPos → Bool) (k : Nat)
    (hk : k < l.length) (hpk : p l[k] = true)
    (hbefore : ∀ i (hi : i < k), p (l.get ⟨i, Nat.lt_trans hi hk⟩) = false) :
    l.findIdx? p = some k := by
  induction l generalizing k with
  | nil => cases hk
  | cons x xs ih =>
    cases k with
    | zero =>
      rw [List.findIdx?_cons, if_pos (show p x = true from hpk)]
    | succ k =>
      have hx : p x = false := hbefore 0 (Nat.succ_pos k)
      have hk2 : k < xs.length := by simpa using hk
      rw [List.findIdx?_cons, if_neg (by simp [hx]), List.findIdx?_succ,
        ih k hk2 hpk (fun i hi => hbefore (i + 1) (by omega))]
      rfl

theorem posLe_iff (a b : Pos) :
    posLe a b = true ↔ a.line < b.line ∨ (a.line = b.line ∧ a.character ≤ b.character) := by
  simp [posLe]

theorem rangeContains_iff (r : JRange) (p : Pos) :
    rangeContains r p = true ↔ posLe r.start p = true ∧ posLe p r.stop = true := by
  simp [rangeContains]

theorem rangeContains_cell_self (L a w : Nat) :
    rangeContains ⟨⟨L, a⟩, ⟨L, a + w⟩⟩ ⟨L, a⟩ = true := by
  rw [rangeContains_iff, posLe_iff, posLe_iff]
  dsimp only
  omega

theorem rangeContains_cell_false_left (L1 a w L2 c : Nat) (h : L1 < L2) :
    rangeContains ⟨⟨L1, a⟩, ⟨L1, a + w⟩⟩ ⟨L2, c⟩ = false := by
  rw [← Bool.not_eq_true, rangeContains_iff, posLe_iff, posLe_iff]
  dsimp only
  omega

theorem rangeContains_cell_false_char (L a w c : Nat) (h : a + w < c) :
    rangeContains ⟨⟨L, a⟩, ⟨L, a + w⟩⟩ ⟨L, c⟩ = false := by
  rw [← Bool.not_eq_true, rangeContains_iff, posLe_iff, posLe_iff]
  dsimp only
  omega

theorem jump_step_of_found (positions : List JumpPos) (current : Pos) (k : Nat)
    (hfind : positions.findIdx? (fun x => rangeContains x.range current) = some k)
    (hk1 : k + 1 < positions.length)
    (hsep : (positions.getD (k + 1) dummyJumpPos).isSeparator = false) :
    jump positions current true =
      some ((positions.getD (k + 1) dummyJumpPos).range.start) := by
  have hsep2 : (positions[k + 1]).isSeparator = false := by
    rw [← List.getD_eq_getElem _ _ hk1]
    exact hsep
  simp [jump, hfind, accIdx, hk1, hsep2]

theorem jump_end_of_found (positions : List JumpPos) (current : Pos) (k : Nat)
    (hfind : positions.findIdx? (fun x => rangeContains x.range current) = some k)
    (hk1 : ¬(k + 1 < positions.length)) :
    jump positions current true = jumpFallback positions current := by
  simp [jump, hfind, accIdx, hk1]

theorem filter_flatten_eq_single (L : List (List JumpPos)) (p : JumpPos → Bool)
    (k : Nat) (hk : k < L.length)
    (hother : ∀ i (hi : i < L.length), i ≠ k → ∀ x ∈ L[i], p x = false)
    (hkeep : ∀ x ∈ L[k], p x = true) :
    L.flatten.filter p = L[k] := by
  induction L generalizing k with
  | nil => cases hk
  | cons b bs ih =>
    rw [List.flatten_cons, List.filter_append]
    cases k with
    | zero =>
      have hb : b.filter p = b := List.filter_eq_self.mpr hkeep
      have hrest : bs.flatten.filter p = [] := by
        rw [List.filter_eq_nil_iff]
        intro x hx
        obtain ⟨l, hl, hxl⟩ := List.mem_flatten.mp hx
        obtain ⟨i, hi, rfl⟩ := List.mem_iff_getElem.mp hl
        have := hother (i + 1) (by simpa using hi) (by omega) x (by simpa using hxl)
        simp [this]
      rw [hb, hrest, List.append_nil]
      rfl
    | succ k =>
      have hbnil : b.filter p = [] := by
        rw [List.filter_eq_nil_iff]
        intro x hx
        have := hother 0 (by simp) (by omega) x (by simpa using hx)
        simp [this]
      have hk2 : k < bs.length := by simpa using hk
      rw [hbnil, List.nil_append]
      rw [ih k hk2 (fun i hi hne x hx =>
        hother (i + 1) (by simpa using hi) (by omega) x (by simpa using hx)) ?keep]
      · rfl
      case keep =>
        intro x hx
        exact hkeep x (by simpa using hx)

theorem mem_fallbackRowPositions (L cp : Nat) (cs : List ColDef) (x : JumpPos)
    (hx : x ∈ fallbackRowPositions L cp cs) :
    ∃ j, j < cs.length ∧
      x = ⟨⟨⟨L, cellStartChar cp cs j⟩,
        ⟨L, cellStartChar cp cs j + (cs.getD j defaultCol).width⟩⟩, false⟩ := by
  obtain ⟨j, hj, hxe⟩ := List.mem_iff_getElem.mp hx
  refine ⟨j, by rw [← fallbackRowPositions_length L cp cs]; exact hj, ?_⟩
  rw [← hxe, fallbackRowPositions_getElem]

/-! ### Claim C4 (amended theorem) -/

/-- C4 amended: on an N-row by M-column table with no separator rows
    (navigator built without a document), nextCell from cell (i, j) moves
    to cell (i, j+1), from the last cell of a non-final row to the next
    row's first cell — a position is returned exactly N times M minus one
    times while walking from the first cell through every cell in row-major
    order — and at the very last cell it does not return none: it wraps to
    the first cell of the last row through the same-line fallback. -/
theorem nextCell_traversal (t : Table) (N M : Nat)
    (hrows : t.rows = List.replicate N RowType.Data)
    (hM : t.cols.length = M) (hN : 0 < N) (hM0 : 0 < M) :
    (∀ i j, i < N → j + 1 < M →
      nextCell t none (cellPos t i j) = some (cellPos t i (j + 1))) ∧
    (∀ i, i + 1 < N →
      nextCell t none (cellPos t i (M - 1)) = some (cellPos t (i + 1) 0)) ∧
    nextCell t none (cellPos t (N - 1) (M - 1)) = some (cellPos t (N - 1) 0) := by
  have hbjp : buildJumpPositions t none = (navBlocks t N).flatten := bjp_data_rows t N hrows
  have hblocks_len : (navBlocks t N).length = N := navBlocks_length t N
  have hbl : ∀ b ∈ navBlocks t N, b.length = M := by
    intro b hb
    obtain ⟨i, _, rfl⟩ := List.mem_map.mp hb
    rw [fallbackRowPositions_length, hM]
  have hnavlen : (navBlocks t N).flatten.length = N * M := by
    rw [flatten_length_uniform _ M hbl, hblocks_len]
  have hgetjp : ∀ i j (hi : i < N) (hj : j < M)
      (hidx : i * M + j < (navBlocks t N).flatten.length),
      (navBlocks t N).flatten[i * M + j] =
        ⟨⟨⟨t.startLine + i, cellStartChar 1 t.cols j⟩,
          ⟨t.startLine + i, cellStartChar 1 t.cols j +
            (t.cols.getD j defaultCol).width⟩⟩, false⟩ := by
    intro i j hi hj hidx
    have hiN : i < (navBlocks t N).length := by rw [hblocks_len]; exact hi
    have hji : j < (navBlocks t N)[i].length := by
      rw [hbl _ (List.getElem_mem hiN)]
      exact hj
    rw [flatten_getElem_uniform _ M hbl i j hiN hj hji hidx]
    simp only [navBlocks_getElem]
    rw [ fallbackRowPositions_getElem]
  have hidx_lt : ∀ i j, i < N → j < M → i * M + j < (navBlocks t N).flatten.length := by
    intro i j hi hj
    rw [hnavlen]
    have h1 : (i + 1) * M = i * M + M := Nat.succ_mul i M
    have h2 : (i + 1) * M ≤ N * M := Nat.mul_le_mul_right M hi
    omega
  have hfind : ∀ i j (hi : i < N) (hj : j < M),
      (navBlocks t N).flatten.findIdx?
        (fun x => rangeContains x.range (cellPos t i j)) = some (i * M + j) := by
    intro i j hi hj
    apply findIdx?_eq_some_of _ _ _ (hidx_lt i j hi hj)
    · rw [hgetjp i j hi hj (hidx_lt i j hi hj)]
      show rangeContains _ (cellPos t i j) = true
      simp only [cellPos]
      exact rangeContains_cell_self _ _ _
    · intro l hl
      have hmod : l % M < M := Nat.mod_lt l hM0
      have hl_eq : l = l / M * M + l % M := by
        have h1 := Nat.div_add_mod l M
        have h2 : M * (l / M) = l / M * M := Nat.mul_comm _ _
        omega
      obtain ⟨q, r, rfl, hr⟩ : ∃ q r, l = q * M + r ∧ r < M :=
        ⟨l / M, l % M, hl_eq, hmod⟩
      have hb : q * M + r < (navBlocks t N).flatten.length :=
        Nat.lt_trans hl (hidx_lt i j hi hj)
      show rangeContains ((navBlocks t N).flatten[q * M + r]).range
        (cellPos t i j) = false
      rcases flat_lt_decompose M q r i j hr hj hl with hq | ⟨hq, hrlt⟩
      · rw [hgetjp q r (by omega) hr hb]
        simp only [cellPos]
        exact rangeContains_cell_false_left _ _ _ _ _ (by omega)
      · subst hq
        rw [hgetjp q r hi hr hb]
        simp only [cellPos]
        have hlt := cellStartChar_lt 1 t.cols r j hrlt (by rw [hM]; exact hj)
        exact rangeContains_cell_false_char _ _ _ _ (by omega)
  refine ⟨?_, ?_, ?_⟩
  · -- within one row
    intro i j hi hj1
    have hj : j < M := by omega
    have hk1 : i * M + j + 1 < (navBlocks t N).flatten.length := by
      rw [hnavlen]
      have h1 : (i + 1) * M = i * M + M := Nat.succ_mul i M
      have h2 : (i + 1) * M ≤ N * M := Nat.mul_le_mul_right M hi
      omega
    have hgd : (navBlocks t N).flatten.getD (i * M + j + 1) dummyJumpPos =
        ⟨⟨⟨t.startLine + i, cellStartChar 1 t.cols (j + 1)⟩,
          ⟨t.startLine + i, cellStartChar 1 t.cols (j + 1) +
            (t.cols.getD (j + 1) defaultCol).width⟩⟩, false⟩ := by
      rw [List.getD_eq_getElem _ _ hk1]
      have hidx_eq : i * M + j + 1 = i * M + (j + 1) := by omega
      simp only [hidx_eq]
      exact hgetjp i (j + 1) hi hj1 (by rw [← hidx_eq]; exact hk1)
    show jump (buildJumpPositions t none) (cellPos t i j) true = _
    rw [hbjp, jump_step_of_found _ _ _ (hfind i j hi hj) hk1 (by rw [hgd]), hgd]
    rfl
  · -- crossing to the next row
    intro i hi1
    have hi : i < N := by omega
    have hj : M - 1 < M := by omega
    have hhsucc : (i + 1) * M = i * M + M := Nat.succ_mul i M
    have hidx_eq : i * M + (M - 1) + 1 = (i + 1) * M + 0 := by omega
    have hk1 : i * M + (M - 1) + 1 < (navBlocks t N).flatten.length := by
      rw [hnavlen, hidx_eq]
      have h2 : (i + 1 + 1) * M = (i + 1) * M + M := Nat.succ_mul (i + 1) M
      have h3 : (i + 1 + 1) * M ≤ N * M := Nat.mul_le_mul_right M hi1
      omega
    have hgd : (navBlocks t N).flatten.getD (i * M + (M - 1) + 1) dummyJumpPos =
        ⟨⟨⟨t.startLine + (i + 1), cellStartChar 1 t.cols 0⟩,
          ⟨t.startLine + (i + 1), cellStartChar 1 t.cols 0 +
            (t.cols.getD 0 defaultCol).width⟩⟩, false⟩ := by
      rw [List.getD_eq_getElem _ _ hk1]
      simp only [hidx_eq]
      exact hgetjp (i + 1) 0 hi1 hM0 (by rw [← hidx_eq]; exact hk1)
    show jump (buildJumpPositions t none) (cellPos t i (M - 1)) true = _
    rw [hbjp, jump_step_of_found _ _ _ (hfind i (M - 1) hi hj) hk1 (by rw [hgd]), hgd]
    rfl
  · -- the last cell wraps to the first cell of the last row
    have hi : N - 1 < N := by omega
    have hj : M - 1 < M := by omega
    have hk_eq : (N - 1) * M + (M - 1) + 1 = N * M := by
      have h1 : (N - 1 + 1) * M = (N - 1) * M + M := Nat.succ_mul (N - 1) M
      have h2 : N - 1 + 1 = N := by omega
      rw [h2] at h1
      omega
    have hk1 : ¬((N - 1) * M + (M - 1) + 1 < (navBlocks t N).flatten.length) := by
      rw [hnavlen]
      omega
    have hchar : ¬((cellPos t (N - 1) (M - 1)).character = 0) := by
      have := cellStartChar_ge 1 t.cols (M - 1)
      simp only [cellPos]
      omega
    have hfilter : (navBlocks t N).flatten.filter (fun x =>
        x.range.start.line == (cellPos t (N - 1) (M - 1)).line && !x.isSeparator) =
        fallbackRowPositions (t.startLine + (N - 1)) 1 t.cols := by
      have hkN : N - 1 < (navBlocks t N).length := by rw [hblocks_len]; exact hi
      have hself : (navBlocks t N)[N - 1] =
          fallbackRowPositions (t.startLine + (N - 1)) 1 t.cols := navBlocks_getElem _ _ _ _
      rw [← hself]
      apply filter_flatten_eq_single _ _ _ hkN
      · intro i2 hi2 hne x hx
        rw [navBlocks_getElem] at hx
        obtain ⟨j2, hj2, rfl⟩ := mem_fallbackRowPositions _ _ _ _ hx
        have hne2 : t.startLine + i2 ≠ t.startLine + (N - 1) := by
          rw [hblocks_len] at hi2
          omega
        simp only [cellPos]
        simp [hne2]
      · intro x hx
        rw [hself] at hx
        obtain ⟨j2, hj2, rfl⟩ := mem_fallbackRowPositions _ _ _ _ hx
        simp only [cellPos]
        simp
    have hblock_ne : fallbackRowPositions (t.startLine + (N - 1)) 1 t.cols ≠ [] := by
      apply List.ne_nil_of_length_pos
      rw [fallbackRowPositions_length, hM]
      omega
    have hfind_none : (fallbackRowPositions (t.startLine + (N - 1)) 1 t.cols).find?
        (fun x => (cellPos t (N - 1) (M - 1)).character < x.range.start.character) =
        none := by
      rw [List.find?_eq_none]
      intro x hx
      obtain ⟨j2, hj2, rfl⟩ := mem_fallbackRowPositions _ _ _ _ hx
      simp only [cellPos]
      rw [hM] at hj2
      rcases Nat.lt_or_ge j2 (M - 1) with hlt | hge
      · have := cellStartChar_lt 1 t.cols j2 (M - 1) hlt (by rw [hM]; omega)
        simp
        omega
      · have hj2e : j2 = M - 1 := by omega
        subst hj2e
        simp
    have hhead : (fallbackRowPositions (t.startLine + (N - 1)) 1 t.cols).head? =
        some ⟨⟨⟨t.startLine + (N - 1), cellStartChar 1 t.cols 0⟩,
          ⟨t.startLine + (N - 1), cellStartChar 1 t.cols 0 +
            (t.cols.getD 0 defaultCol).width⟩⟩, false⟩ := by
      have hlen : 0 < (fallbackRowPositions (t.startLine + (N - 1)) 1 t.cols).length := by
        rw [fallbackRowPositions_length, hM]
        omega
      rw [List.head?_eq_getElem?, List.getElem?_eq_getElem hlen,
        fallbackRowPositions_getElem]
    show jump (buildJumpPositions t none) (cellPos t (N - 1) (M - 1)) true = _
    rw [hbjp, jump_end_of_found _ _ _ (hfind (N - 1) (M - 1) hi hj) hk1]
    simp only [jumpFallback, if_neg hchar]
    rw [hfilter, if_neg (by simp [List.isEmpty_iff, hblock_ne]), hfind_none, hhead]
    rfl

/-- C4 witness: traversal on the concrete one-by-one table: the wrap at the
    last cell returns the first cell of the last row. -/
theorem nextCell_traversal_witness :
    nextCell c4table none (cellPos c4table 0 0) = some (cellPos c4table 0 0) :=
  (nextCell_traversal c4table 1 1 (by decide) (by decide) (by decide) (by decide)).2.2

/-! ### String lemmas for the round-trip theorem -/

theorem removeWs_append (a b : Str) : removeWs (a ++ b) = removeWs a ++ removeWs b := by
  simp [removeWs]

theorem removeWs_idem (s : Str) : removeWs (removeWs s) = removeWs s := by
  simp [removeWs, List.filter_filter]

theorem mdIsSeparatorRow_removeWs (s : Str) :
    MarkdownParser.isSeparatorRow (removeWs s) = MarkdownParser.isSeparatorRow s := by
  simp [MarkdownParser.isSeparatorRow, removeWs_idem]

theorem trimLeft_cons_of_not_space {c : Char} (h : jsIsSpace c = false) (s : Str) :
    trimLeft (c :: s) = c :: s := by
  simp [trimLeft, List.dropWhile_cons, h]

theorem dropWhile_append_of_forall {p : Char → Bool} {y : Str} (hy : ∀ c ∈ y, p c = true)
    (z : Str) : (y ++ z).dropWhile p = z.dropWhile p := by
  induction y with
  | nil => rfl
  | cons c cs ih =>
    simp only [List.cons_append, List.dropWhile_cons, hy c (List.mem_cons_self _ _)]
    exact ih fun d hd => hy d (List.mem_cons_of_mem _ hd)

theorem trimRight_append_of_spaces {y : Str} (hy : ∀ c ∈ y, jsIsSpace c = true) (x : Str) :
    trimRight (x ++ y) = trimRight x := by
  simp only [trimRight, List.reverse_append]
  rw [dropWhile_append_of_forall (by intro c hc; exact hy c (by simpa using hc))]

theorem trimRight_concat_of_not_space {c : Char} (h : jsIsSpace c = false) (s : Str) :
    trimRight (s ++ [c]) = s ++ [c] := by
  simp only [trimRight, List.reverse_append, List.reverse_cons, List.reverse_nil,
    List.nil_append, List.singleton_append, List.dropWhile_cons, h]
  simp

theorem jsTrim_of_ends {a b : Char} (ha : jsIsSpace a = false) (hb : jsIsSpace b = false)
    (mid : Str) : jsTrim (a :: (mid ++ [b])) = a :: (mid ++ [b]) := by
  rw [jsTrim, trimLeft_cons_of_not_space ha]
  rw [show a :: (mid ++ [b]) = (a :: mid) ++ [b] from rfl]
  exact trimRight_concat_of_not_space hb _

theorem trimLeft_eq_self_head {s : Str} (h : trimLeft s = s) :
    ∀ c ∈ s.head?, jsIsSpace c = false := by
  cases s with
  | nil => intro c hc; cases hc
  | cons x xs =>
    intro c hc
    rw [List.head?_cons, Option.mem_some_iff] at hc
    subst hc
    by_contra hsp
    rw [Bool.not_eq_false] at hsp
    rw [trimLeft, List.dropWhile_cons, if_pos hsp] at h
    have hsub := (List.dropWhile_sublist (p := jsIsSpace) (l := xs)).length_le
    rw [h] at hsub
    simp at hsub

/-- Trimming a cell that is wrapped in the rendered padding (one leading
    space, trailing pad and one trailing space) recovers the cell. -/
theorem jsTrim_wrap (c : Str) (p : Nat) (h1 : trimLeft c = c) (h2 : trimRight c = c) :
    jsTrim (' ' :: (c ++ List.replicate p ' ' ++ [' '])) = c := by
  have hsp : ∀ d ∈ (List.replicate p ' ' ++ [' '] : Str), jsIsSpace d = true := by
    intro d hd
    rcases List.mem_append.mp hd with hd | hd
    · rw [List.eq_of_mem_replicate hd]; rfl
    · rw [List.mem_singleton.mp hd]; rfl
  cases hc : c with
  | nil =>
    subst hc
    have hall : ∀ d ∈ (' ' :: (([] : Str) ++ List.replicate p ' ' ++ [' '])),
        jsIsSpace d = true := by
      intro d hd
      rcases List.mem_cons.mp hd with rfl | hd
      · rfl
      · exact hsp d (by simpa using hd)
    rw [jsTrim, trimLeft, List.dropWhile_eq_nil_iff.mpr hall]
    rfl
  | cons x xs =>
    have hx : jsIsSpace x = false := by
      have := trimLeft_eq_self_head h1
      rw [hc] at this
      exact this x rfl
    subst hc
    rw [jsTrim, trimLeft]
    rw [show (' ' :: (x :: xs ++ List.replicate p ' ' ++ [' '])) =
        ' ' :: (x :: (xs ++ (List.replicate p ' ' ++ [' ']))) from by simp]
    rw [List.dropWhile_cons]
    simp only [show jsIsSpace ' ' = true from rfl, if_true]
    rw [List.dropWhile_cons, hx]
    simp only [Bool.false_eq_true, if_false]
    rw [show (x :: (xs ++ (List.replicate p ' ' ++ [' ']))) =
        (x :: xs) ++ (List.replicate p ' ' ++ [' ']) from by simp]
    rw [trimRight_append_of_spaces hsp]
    exact h2

/-! ### Renderer structure lemmas -/

theorem dataCellsRender_acc (cols : List ColDef) (row : List Str) :
    ∀ (idx : Nat) (prev : Str),
      dataCellsRender cols idx prev row = prev ++ dataCellsRender cols idx [] row := by
  induction row with
  | nil => intro idx prev; simp [dataCellsRender]
  | cons c rest ih =>
    intro idx prev
    simp only [dataCellsRender]
    rw [ih (idx + 1)
        (prev ++ [' '] ++ padString c (cols.getD idx defaultCol).width ++ [' ', '|']),
      ih (idx + 1)
        ([] ++ [' '] ++ padString c (cols.getD idx defaultCol).width ++ [' ', '|'])]
    simp [List.append_assoc]

theorem mdSeparatorRender_acc (cols : List ColDef) (row : List Str) :
    ∀ (idx : Nat) (prev : Str),
      mdSeparatorRender cols idx prev row = prev ++ mdSeparatorRender cols idx [] row := by
  induction row with
  | nil => intro idx prev; simp [mdSeparatorRender]
  | cons c rest ih =>
    intro idx prev
    simp only [mdSeparatorRender]
    rw [ih (idx + 1) (prev ++ mdSeparatorCell (cols.getD idx defaultCol)),
      ih (idx + 1) ([] ++ mdSeparatorCell (cols.getD idx defaultCol))]
    simp [List.append_assoc]

theorem orgSeparatorRender_acc (cols : List ColDef) (row : List Str) :
    ∀ (idx : Nat) (prev : Str),
      orgSeparatorRender cols idx prev row =
        prev ++ orgSeparatorRender cols idx [] row := by
  induction row with
  | nil => intro idx prev; simp [orgSeparatorRender]
  | cons c rest ih =>
    intro idx prev
    simp only [orgSeparatorRender]
    rw [ih (idx + 1) (prev ++ List.replicate ((cols.getD idx defaultCol).width + 2) '-' ++
        (if idx = cols.length - 1 then ['|'] else ['+'])),
      ih (idx + 1) ([] ++ List.replicate ((cols.getD idx defaultCol).width + 2) '-' ++
        (if idx = cols.length - 1 then ['|'] else ['+']))]
    simp [List.append_assoc]

theorem dataCellsRender_shape (row : List Str) :
    ∀ (cols : List ColDef) (idx : Nat), row ≠ [] → (∀ c ∈ row, '\n' ∉ c) →
    ∃ y : Str, dataCellsRender cols idx [] row = ' ' :: y ++ ['|'] ∧
      '\n' ∉ (' ' :: y) := by
  induction row with
  | nil => intro _ _ h _; exact absurd rfl h
  | cons c rest ih =>
    intro cols idx _ hok
    have hcnl : '\n' ∉ c := hok c (List.mem_cons_self _ _)
    have hpad : '\n' ∉ padString c (cols.getD idx defaultCol).width := by
      intro hmem
      rcases List.mem_append.mp hmem with h | h
      · exact hcnl h
      · exact absurd (List.eq_of_mem_replicate h) (by decide)
    simp only [dataCellsRender]
    rw [dataCellsRender_acc]
    rcases rest with _ | ⟨c2, rest2⟩
    · refine ⟨padString c (cols.getD idx defaultCol).width ++ [' '], ?_, ?_⟩
      · simp [dataCellsRender]
      · intro hmem
        rcases List.mem_cons.mp hmem with h | h
        · exact absurd h (by decide)
        · rcases List.mem_append.mp h with h | h
          · exact hpad h
          · exact absurd (List.mem_singleton.mp h) (by decide)
    · obtain ⟨y2, hy2, hy2nl⟩ := ih cols (idx + 1) (by simp)
        (fun d hd => hok d (List.mem_cons_of_mem _ hd))
      rw [hy2]
      refine ⟨padString c (cols.getD idx defaultCol).width ++ [' ', '|', ' '] ++ y2,
        by simp, ?_⟩
      intro hmem
      rcases List.mem_cons.mp hmem with h | h
      · exact absurd h (by decide)
      · rcases List.mem_append.mp h with h | h
        · rcases List.mem_append.mp h with h | h
          · exact hpad h
          · exact absurd h (by decide)
        · exact hy2nl (List.mem_cons_of_mem _ h)

theorem md_data_split (row : List Str) :
    ∀ (cols : List ColDef) (idx : Nat), row ≠ [] → (∀ c ∈ row, cellOk c) →
    (jsSplit '|' ((dataCellsRender cols idx [] row).dropLast)).map jsTrim = row := by
  induction row with
  | nil => intro _ _ h _; exact absurd rfl h
  | cons c rest ih =>
    intro cols idx _ hok
    obtain ⟨hc1, hc2, hc3, hc4⟩ := hok c (List.mem_cons_self _ _)
    have hnopipe : ∀ x ∈ ([' '] ++ padString c (cols.getD idx defaultCol).width ++
        [' '] : Str), ¬((x == '|') = true) := by
      intro x hx hmem
      rw [beq_iff_eq] at hmem
      subst hmem
      rcases List.mem_append.mp hx with h | h
      · rcases List.mem_append.mp h with h | h
        · exact absurd (List.mem_singleton.mp h) (by decide)
        · rcases List.mem_append.mp h with h | h
          · exact hc3 h
          · exact absurd (List.eq_of_mem_replicate h) (by decide)
      · exact absurd (List.mem_singleton.mp h) (by decide)
    have hwrap : jsTrim ([' '] ++ padString c (cols.getD idx defaultCol).width ++
        [' ']) = c := by
      rw [show ([' '] ++ padString c (cols.getD idx defaultCol).width ++ [' '] : Str) =
        ' ' :: (c ++ List.replicate
          ((cols.getD idx defaultCol).width - getStringWidth c) ' ' ++ [' ']) from by
        simp [padString]]
      exact jsTrim_wrap c _ hc1 hc2
    simp only [dataCellsRender]
    rw [dataCellsRender_acc]
    rcases rest with _ | ⟨c2, rest2⟩
    · have hrender : dataCellsRender cols (idx + 1) [] ([] : List Str) = [] := rfl
      rw [hrender, List.append_nil]
      rw [show ([] ++ [' '] ++ padString c (cols.getD idx defaultCol).width ++
          [' ', '|'] : Str) =
          (([' '] ++ padString c (cols.getD idx defaultCol).width ++ [' ']) ++ ['|'])
          from by simp]
      rw [List.dropLast_concat]
      simp only [jsSplit, List.splitOn]
      rw [List.splitOnP_eq_single _ _ hnopipe]
      simp only [List.map_cons, List.map_nil]
      rw [hwrap]
    · obtain ⟨y2, hy2, -⟩ := dataCellsRender_shape (c2 :: rest2) cols (idx + 1) (by simp)
        (fun d hd => (hok d (List.mem_cons_of_mem _ hd)).2.2.2)
      have hne2 : dataCellsRender cols (idx + 1) [] (c2 :: rest2) ≠ [] := by
        rw [hy2]
        simp
      rw [List.dropLast_append_of_ne_nil _ hne2]
      rw [show ([] ++ [' '] ++ padString c (cols.getD idx defaultCol).width ++
          [' ', '|'] ++ (dataCellsRender cols (idx + 1) [] (c2 :: rest2)).dropLast : Str) =
          (([' '] ++ padString c (cols.getD idx defaultCol).width ++ [' ']) ++
            '|' :: (dataCellsRender cols (idx + 1) [] (c2 :: rest2)).dropLast)
          from by simp]
      simp only [jsSplit, List.splitOn]
      rw [List.splitOnP_first _ _ hnopipe '|' (by simp) _]
      simp only [List.map_cons, List.cons.injEq]
      refine ⟨hwrap, ?_⟩
      have htail := ih cols (idx + 1) (by simp)
        (fun d hd => hok d (List.mem_cons_of_mem _ hd))
      simpa [jsSplit, List.splitOn] using htail

/-- A rendered data line starts with the marker, is trim-stable, contains
    no newline, fails the Org separator test and re-splits into exactly the
    original cells. -/
theorem dataRowLine_facts (cols : List ColDef) (row : List Str) (hne : row ≠ [])
    (hok : ∀ c ∈ row, cellOk c) :
    jsStartsWith (dataRowLine cols row) ['|'] = true ∧
    jsTrim (dataRowLine cols row) = dataRowLine cols row ∧
    '\n' ∉ dataRowLine cols row ∧
    OrgParser.isSeparatorRow (dataRowLine cols row) = false ∧
    dataRowValues (dataRowLine cols row) = row := by
  obtain ⟨y, hy, hynl⟩ :=
    dataCellsRender_shape row cols 0 hne (fun c hc => (hok c hc).2.2.2)
  have hline : dataRowLine cols row = '|' :: (' ' :: y ++ ['|']) := by
    rw [dataRowLine, dataCellsRender_acc, hy]
    rfl
  refine ⟨?_, ?_, ?_, ?_, ?_⟩
  · rw [hline]
    simp [jsStartsWith]
  · rw [hline]
    exact jsTrim_of_ends (by decide) (by decide) (' ' :: y)
  · rw [hline]
    intro hmem
    rcases List.mem_cons.mp hmem with h | h
    · exact absurd h (by decide)
    · rcases List.mem_append.mp h with h | h
      · exact hynl h
      · exact absurd (List.mem_singleton.mp h) (by decide)
  · rw [hline]
    simp [OrgParser.isSeparatorRow]
  · rw [hline]
    have hends : jsEndsWith ('|' :: (' ' :: y ++ ['|'])) ['|'] = true := by
      rw [jsEndsWith]
      have hrev : ('|' :: (' ' :: y ++ ['|'])).reverse =
          '|' :: ((' ' :: y).reverse ++ ['|']) := by
        simp
      rw [hrev]
      simp [jsStartsWith]
    rw [dataRowValues, if_pos hends]
    have hslice : jsSlice ('|' :: (' ' :: y ++ ['|'])) 1
        (('|' :: (' ' :: y ++ ['|'])).length - 1) = ' ' :: y := by
      rw [jsSlice]
      have hlen : ('|' :: (' ' :: y ++ ['|'])).length - 1 - 1 = (' ' :: y).length := by
        simp
      rw [hlen]
      simp only [List.drop_succ_cons, List.drop_zero]
      rw [show (' ' :: y ++ ['|'] : Str) = (' ' :: y) ++ ['|'] from rfl]
      exact List.take_left _ _
    rw [hslice]
    have hdrop : (dataCellsRender cols 0 [] row).dropLast = ' ' :: y := by
      rw [hy, show (' ' :: y ++ ['|'] : Str) = (' ' :: y) ++ ['|'] from rfl]
      exact List.dropLast_concat
    rw [← hdrop]
    exact md_data_split row cols 0 hne hok

theorem removeWs_replicate_dash (n : Nat) :
    removeWs (List.replicate n '-') = List.replicate n '-' := by
  apply List.filter_eq_self.mpr
  intro c hc
  rw [List.eq_of_mem_replicate hc]
  rfl

theorem removeWs_cons_space (s : Str) : removeWs (' ' :: s) = removeWs s := by
  simp [removeWs, List.filter_cons, jsIsSpace]

theorem removeWs_cons_keep {c : Char} (h : jsIsSpace c = false) (s : Str) :
    removeWs (c :: s) = c :: removeWs s := by
  simp [removeWs, List.filter_cons, h]

theorem removeWs_mdSeparatorCell (c : ColDef) :
    removeWs (mdSeparatorCell c) = mdSepPattern c ++ ['|'] := by
  rcases c with ⟨a, w⟩
  have key : ∀ (b e : Char), jsIsSpace b = false → jsIsSpace e = false →
      removeWs ([' ', b] ++ List.replicate (w - 2) '-' ++ [e, ' ', '|']) =
        (b :: (List.replicate (w - 2) '-' ++ [e])) ++ ['|'] := by
    intro b e hb he
    rw [show ([' ', b] ++ List.replicate (w - 2) '-' ++ [e, ' ', '|'] : Str) =
      ' ' :: (b :: (List.replicate (w - 2) '-' ++ [e, ' ', '|'])) from by simp]
    rw [removeWs_cons_space, removeWs_cons_keep hb, removeWs_append,
      removeWs_replicate_dash,
      show removeWs ([e, ' ', '|'] : Str) = [e, '|'] from by
        rw [removeWs_cons_keep he]
        rfl]
    simp
  cases a with
  | Left => exact key '-' '-' (by decide) (by decide)
  | Center => exact key ':' ':' (by decide) (by decide)
  | Right => exact key '-' ':' (by decide) (by decide)

theorem mdSepPattern_shape (c : ColDef) :
    ∃ b e : Char, (b = ':' ∨ b = '-') ∧ (e = ':' ∨ e = '-') ∧
      mdSepPattern c = b :: (List.replicate (c.width - 2) '-' ++ [e]) := by
  rcases c with ⟨a, w⟩
  cases a with
  | Left => exact ⟨'-', '-', Or.inr rfl, Or.inr rfl, rfl⟩
  | Center => exact ⟨':', ':', Or.inl rfl, Or.inl rfl, rfl⟩
  | Right => exact ⟨'-', ':', Or.inr rfl, Or.inl rfl, rfl⟩

theorem mdSepPattern_length (c : ColDef) (hw : 2 ≤ c.width) :
    (mdSepPattern c).length = c.width := by
  obtain ⟨b, e, -, -, hshape⟩ := mdSepPattern_shape c
  rw [hshape]
  simp only [List.length_cons, List.length_append, List.length_replicate,
    List.length_singleton, List.length_nil]
  omega

theorem mdSepPattern_no_pipe (c : ColDef) : ∀ x ∈ mdSepPattern c, ¬((x == '|') = true) := by
  obtain ⟨b, e, hb, he, hshape⟩ := mdSepPattern_shape c
  rw [hshape]
  intro x hx hmem
  rw [beq_iff_eq] at hmem
  subst hmem
  rcases List.mem_cons.mp hx with h | h
  · rcases hb with rfl | rfl <;> cases h
  · rcases List.mem_append.mp h with h | h
    · exact absurd (List.eq_of_mem_replicate h) (by decide)
    · rcases List.mem_singleton.mp h with h
      rcases he with rfl | rfl <;> cases h

theorem mdAlignOf_pattern (c : ColDef) (hw : 3 ≤ c.width) :
    mdAlignOf (mdSepPattern c) = c.alignment := by
  rcases c with ⟨a, w⟩
  have hw3 : 3 ≤ w := hw
  have hmid : ∃ m : Nat, w - 2 = m + 1 := ⟨w - 3, by omega⟩
  obtain ⟨m, hm⟩ := hmid
  cases a with
  | Left =>
    show mdAlignOf (('-' :: (List.replicate (w - 2) '-' ++ ['-'])) : Str) = _
    rw [mdAlignOf, jsTrim_of_ends (by decide) (by decide)]
    rw [show ('-' :: (List.replicate (w - 2) '-' ++ ['-']) : Str) =
      ('-' :: List.replicate (w - 2) '-') ++ ['-'] from by simp]
    rw [List.getLastD_concat]
    simp
  | Center =>
    show mdAlignOf ((':' :: (List.replicate (w - 2) '-' ++ [':'])) : Str) = _
    rw [mdAlignOf, jsTrim_of_ends (by decide) (by decide)]
    rw [show (':' :: (List.replicate (w - 2) '-' ++ [':']) : Str) =
      (':' :: List.replicate (w - 2) '-') ++ [':'] from by simp]
    rw [List.getLastD_concat]
    simp
  | Right =>
    show mdAlignOf (('-' :: (List.replicate (w - 2) '-' ++ [':'])) : Str) = _
    rw [mdAlignOf, jsTrim_of_ends (by decide) (by decide)]
    rw [show ('-' :: (List.replicate (w - 2) '-' ++ [':']) : Str) =
      ('-' :: List.replicate (w - 2) '-') ++ [':'] from by simp]
    rw [List.getLastD_concat]
    simp

/-! ### The rendered table of the Markdown stringifier -/

theorem md_stringify_eq (t : Table) :
    MarkdownStringifier.stringify t =
      List.intercalate ['\n']
        ((List.range (mdRenderTable t).rows.length).map (mdRowLine (mdRenderTable t))) := rfl

theorem mdRenderTable_rows (t : Table) : (mdRenderTable t).rows = t.rows := by
  rw [mdRenderTable]
  split <;> rfl

theorem mdRenderTable_data (t : Table) : (mdRenderTable t).data = t.data := by
  rw [mdRenderTable]
  split <;> rfl

theorem mdRenderTable_cols_length (t : Table) :
    (mdRenderTable t).cols.length = t.cols.length := by
  rw [mdRenderTable]
  split
  · simp [raiseWidthsTo3]
  · rfl

theorem mdRenderTable_cols_alignments (t : Table) :
    (mdRenderTable t).cols.map ColDef.alignment = t.cols.map ColDef.alignment := by
  rw [mdRenderTable]
  split
  · simp only [raiseWidthsTo3, List.map_map]
    rfl
  · rfl

theorem mdRenderTable_cols_sep (t : Table) (h : hasSeparatorRow t = true) :
    (mdRenderTable t).cols = raiseWidthsTo3 t.cols := by
  rw [mdRenderTable, if_pos h]

/-! ### Rendered Markdown separator rows -/

theorem mem_mdSeparatorCell {x : Char} (c : ColDef) (hx : x ∈ mdSeparatorCell c) :
    x = ' ' ∨ x = ':' ∨ x = '-' ∨ x = '|' := by
  simp only [mdSeparatorCell, List.mem_append] at hx
  rcases hx with (hx | hx) | hx
  · split at hx <;> simp at hx <;> tauto
  · rw [List.eq_of_mem_replicate hx]
    tauto
  · split at hx <;> simp at hx <;> tauto

theorem mdSeparatorCell_shape (c : ColDef) :
    ∃ z : Str, mdSeparatorCell c = ' ' :: (z ++ ['|']) := by
  rcases c with ⟨a, w⟩
  cases a with
  | Left =>
    exact ⟨'-' :: (List.replicate (w - 2) '-' ++ ['-', ' ']), by simp [mdSeparatorCell]⟩
  | Center =>
    exact ⟨':' :: (List.replicate (w - 2) '-' ++ [':', ' ']), by simp [mdSeparatorCell]⟩
  | Right =>
    exact ⟨'-' :: (List.replicate (w - 2) '-' ++ [':', ' ']), by simp [mdSeparatorCell]⟩

theorem mdSeparatorRender_shape (row : List Str) :
    ∀ (cols : List ColDef) (idx : Nat), row ≠ [] →
    ∃ y : Str, mdSeparatorRender cols idx [] row = ' ' :: (y ++ ['|']) ∧
      ∀ x ∈ mdSeparatorRender cols idx [] row, x = ' ' ∨ x = ':' ∨ x = '-' ∨ x = '|' := by
  induction row with
  | nil => intro _ _ h; exact absurd rfl h
  | cons c rest ih =>
    intro cols idx _
    simp only [mdSeparatorRender]
    rw [mdSeparatorRender_acc, List.nil_append]
    obtain ⟨z, hz⟩ := mdSeparatorCell_shape (cols.getD idx defaultCol)
    rcases rest with _ | ⟨c2, rest2⟩
    · rw [show mdSeparatorRender cols (idx + 1) [] [] = [] from rfl, List.append_nil]
      exact ⟨z, hz, fun x hx => mem_mdSeparatorCell _ hx⟩
    · obtain ⟨y2, hy2, hmem2⟩ := ih cols (idx + 1) (by simp)
      refine ⟨z ++ ['|'] ++ ' ' :: y2, ?_, ?_⟩
      · rw [hz, hy2]
        simp
      · intro x hx
        rcases List.mem_append.mp hx with hx | hx
        · exact mem_mdSeparatorCell _ hx
        · exact hmem2 x hx

theorem md_sep_shape (row : List Str) :
    ∀ (cols : List ColDef) (idx : Nat), row ≠ [] →
    ∃ y : Str, removeWs (mdSeparatorRender cols idx [] row) = y ++ ['|'] := by
  induction row with
  | nil => intro _ _ h; exact absurd rfl h
  | cons c rest ih =>
    intro cols idx _
    simp only [mdSeparatorRender]
    rw [mdSeparatorRender_acc, List.nil_append, removeWs_append, removeWs_mdSeparatorCell]
    rcases rest with _ | ⟨c2, rest2⟩
    · exact ⟨mdSepPattern (cols.getD idx defaultCol),
        by rw [show removeWs (mdSeparatorRender cols (idx + 1) [] []) = [] from rfl,
          List.append_nil]⟩
    · obtain ⟨y2, hy2⟩ := ih cols (idx + 1) (by simp)
      rw [hy2]
      exact ⟨mdSepPattern (cols.getD idx defaultCol) ++ ['|'] ++ y2, by simp⟩

theorem map_pattern_range_succ (cols : List ColDef) (idx n : Nat) :
    (List.range (n + 1)).map (fun k => mdSepPattern (cols.getD (idx + k) defaultCol)) =
      mdSepPattern (cols.getD idx defaultCol) ::
        (List.range n).map (fun k => mdSepPattern (cols.getD (idx + 1 + k) defaultCol)) := by
  rw [List.range_succ_eq_map, List.map_cons, List.map_map]
  refine List.cons_eq_cons.mpr ⟨by rw [Nat.add_zero], ?_⟩
  refine List.map_congr_left fun k _ => ?_
  simp only [Function.comp, Nat.succ_eq_add_one]
  rw [show idx + (k + 1) = idx + 1 + k from by omega]

theorem md_sep_split (row : List Str) :
    ∀ (cols : List ColDef) (idx : Nat), row ≠ [] →
    jsSplit '|' ((removeWs (mdSeparatorRender cols idx [] row)).dropLast) =
      (List.range row.length).map (fun k => mdSepPattern (cols.getD (idx + k) defaultCol)) := by
  induction row with
  | nil => intro _ _ h; exact absurd rfl h
  | cons c rest ih =>
    intro cols idx _
    simp only [mdSeparatorRender]
    rw [mdSeparatorRender_acc, List.nil_append, removeWs_append, removeWs_mdSeparatorCell]
    rcases rest with _ | ⟨c2, rest2⟩
    · rw [show removeWs (mdSeparatorRender cols (idx + 1) [] []) = [] from rfl,
        List.append_nil, List.dropLast_concat]
      simp only [jsSplit, List.splitOn]
      rw [List.splitOnP_eq_single _ _ (mdSepPattern_no_pipe _)]
      rw [show (c :: ([] : List Str)).length = 1 from rfl,
        show List.range 1 = [0] from rfl, List.map_cons, List.map_nil, Nat.add_zero]
    · obtain ⟨y2, hy2⟩ := md_sep_shape (c2 :: rest2) cols (idx + 1) (by simp)
      have hne2 : removeWs (mdSeparatorRender cols (idx + 1) [] (c2 :: rest2)) ≠ [] := by
        rw [hy2]
        simp
      rw [List.dropLast_append_of_ne_nil _ hne2]
      rw [show mdSepPattern (cols.getD idx defaultCol) ++ ['|'] ++
          (removeWs (mdSeparatorRender cols (idx + 1) [] (c2 :: rest2))).dropLast =
          mdSepPattern (cols.getD idx defaultCol) ++
            '|' :: (removeWs (mdSeparatorRender cols (idx + 1) [] (c2 :: rest2))).dropLast
          from by simp]
      simp only [jsSplit, List.splitOn]
      rw [List.splitOnP_first _ _ (mdSepPattern_no_pipe _) '|' (by simp) _]
      have htail := ih cols (idx + 1) (by simp)
      simp only [jsSplit, List.splitOn] at htail
      rw [htail]
      rw [show (c :: c2 :: rest2).length = (c2 :: rest2).length + 1 from rfl,
        map_pattern_range_succ]

/-! ### Slice helpers for the parser's separator branch -/

theorem jsStartsWith_bar (y : Str) : jsStartsWith ('|' :: y) ['|'] = true := by
  simp [jsStartsWith]

theorem jsEndsWith_bar (y : Str) : jsEndsWith (y ++ ['|']) ['|'] = true := by
  rw [jsEndsWith]
  simp [jsStartsWith]

theorem jsSlice_wrap (y : Str) :
    jsSlice ('|' :: (y ++ ['|'])) 1 (('|' :: (y ++ ['|'])).length - 1) = y := by
  rw [jsSlice]
  rw [show ('|' :: (y ++ ['|'])).length - 1 - 1 = y.length from by simp]
  simp only [List.drop_succ_cons, List.drop_zero]
  exact List.take_left _ _

/-- A rendered Markdown separator line starts with the marker, is
    trim-stable, contains no newline and passes the separator-row test when
    the first column is at least three wide. -/
theorem mdSeparatorLine_facts (cols : List ColDef) (row : List Str) (hne : row ≠ [])
    (hw0 : 3 ≤ (cols.getD 0 defaultCol).width) :
    jsStartsWith (mdSeparatorLine cols row) ['|'] = true ∧
    jsTrim (mdSeparatorLine cols row) = mdSeparatorLine cols row ∧
    '\n' ∉ mdSeparatorLine cols row ∧
    MarkdownParser.isSeparatorRow (mdSeparatorLine cols row) = true := by
  have hline : mdSeparatorLine cols row = '|' :: mdSeparatorRender cols 0 [] row := by
    rw [mdSeparatorLine, mdSeparatorRender_acc]
    rfl
  obtain ⟨y, hy, hmem⟩ := mdSeparatorRender_shape row cols 0 hne
  refine ⟨?_, ?_, ?_, ?_⟩
  · rw [hline]
    exact jsStartsWith_bar _
  · rw [hline, hy]
    rw [show ('|' :: (' ' :: (y ++ ['|'])) : Str) = '|' :: ((' ' :: y) ++ ['|']) from by simp]
    exact jsTrim_of_ends (by decide) (by decide) _
  · rw [hline]
    intro hmemn
    rcases List.mem_cons.mp hmemn with h | h
    · exact absurd h (by decide)
    · rcases hmem '\n' h with h | h | h | h <;> exact absurd h (by decide)
  · rcases row with _ | ⟨c, rest⟩
    · exact absurd rfl hne
    rw [hline]
    simp only [MarkdownParser.isSeparatorRow]
    have hrw : removeWs ('|' :: mdSeparatorRender cols 0 [] (c :: rest)) =
        '|' :: (mdSepPattern (cols.getD 0 defaultCol) ++
          ('|' :: removeWs (mdSeparatorRender cols 1 [] rest))) := by
      rw [removeWs_cons_keep (by decide)]
      simp only [mdSeparatorRender, Nat.zero_add]
      rw [mdSeparatorRender_acc, List.nil_append, removeWs_append, removeWs_mdSeparatorCell]
      simp
    rw [hrw]
    obtain ⟨b, e, hb, he, hshape⟩ := mdSepPattern_shape (cols.getD 0 defaultCol)
    obtain ⟨m, hm⟩ : ∃ m, (cols.getD 0 defaultCol).width - 2 = m + 1 :=
      ⟨(cols.getD 0 defaultCol).width - 3, by omega⟩
    rw [hshape, hm, List.replicate_succ]
    rcases hb with rfl | rfl
    · have hB : jsStartsWith ('|' :: ':' :: '-' :: ((List.replicate m '-' ++ [e]) ++
          '|' :: removeWs (mdSeparatorRender cols 1 [] rest))) ['|', ':', '-'] = true := by
        simp [jsStartsWith]
      rw [show (('|' :: ((':' :: ('-' :: List.replicate m '-' ++ [e])) ++
          '|' :: removeWs (mdSeparatorRender cols 1 [] rest))) : Str) =
          '|' :: ':' :: '-' :: ((List.replicate m '-' ++ [e]) ++
          '|' :: removeWs (mdSeparatorRender cols 1 [] rest)) from by simp, hB,
        Bool.or_true]
    · have hA : jsStartsWith ('|' :: '-' :: '-' :: ((List.replicate m '-' ++ [e]) ++
          '|' :: removeWs (mdSeparatorRender cols 1 [] rest))) ['|', '-'] = true := by
        simp [jsStartsWith]
      rw [show (('|' :: (('-' :: ('-' :: List.replicate m '-' ++ [e])) ++
          '|' :: removeWs (mdSeparatorRender cols 1 [] rest))) : Str) =
          '|' :: '-' :: '-' :: ((List.replicate m '-' ++ [e]) ++
          '|' :: removeWs (mdSeparatorRender cols 1 [] rest)) from by simp, hA,
        Bool.true_or]

/-- The alignment-extraction loop of the separator branch, described
    pointwise: parts of length at least three that fit inside the column
    list overwrite the alignment of the column at their running index and
    change nothing else. -/
theorem mdApplyAligns_spec (parts : List Str) :
    ∀ (cols : List ColDef) (i : Nat),
      (∀ p ∈ parts, 3 ≤ jsLength p) → i + parts.length ≤ cols.length →
      (mdApplyAligns cols i parts).length = cols.length ∧
      ∀ j, j < cols.length →
        (mdApplyAligns cols i parts).getD j defaultCol =
          (if i ≤ j ∧ j < i + parts.length then
            { cols.getD j defaultCol with
                alignment := mdAlignOf (parts.getD (j - i) []) }
          else cols.getD j defaultCol) := by
  induction parts with
  | nil =>
    intro cols i _ _
    have h0 : ([] : List Str).length = 0 := rfl
    refine ⟨rfl, fun j hj => ?_⟩
    rw [if_neg (show ¬(i ≤ j ∧ j < i + ([] : List Str).length) from by omega)]
    rfl
  | cons part rest ih =>
    intro cols i hlen3 hle
    have hp3 : 3 ≤ jsLength part := hlen3 part (List.mem_cons_self _ _)
    have hlc : (part :: rest).length = rest.length + 1 := rfl
    have hi : i < cols.length := by omega
    have hstep : mdApplyAlignPart cols i part =
        cols.set i { cols.getD i defaultCol with alignment := mdAlignOf part } := by
      simp only [mdApplyAlignPart]
      rw [if_neg (by omega), if_pos hi]
    obtain ⟨ihlen, ihget⟩ := ih
      (cols.set i { cols.getD i defaultCol with alignment := mdAlignOf part }) (i + 1)
      (fun p hp => hlen3 p (List.mem_cons_of_mem _ hp))
      (by rw [List.length_set]; omega)
    rw [List.length_set] at ihlen
    have hunfold : mdApplyAligns cols i (part :: rest) =
        mdApplyAligns
          (cols.set i { cols.getD i defaultCol with alignment := mdAlignOf part })
          (i + 1) rest := by
      simp only [mdApplyAligns]
      rw [hstep]
    refine ⟨by rw [hunfold]; exact ihlen, ?_⟩
    intro j hj
    rw [hunfold, ihget j (by rw [List.length_set]; exact hj)]
    by_cases h1 : i + 1 ≤ j ∧ j < i + 1 + rest.length
    · rw [if_pos h1, if_pos (show i ≤ j ∧ j < i + (part :: rest).length from by omega)]
      have hgd : (cols.set i { cols.getD i defaultCol with
          alignment := mdAlignOf part }).getD j defaultCol = cols.getD j defaultCol := by
        rw [List.getD_eq_getElem _ _ (by rw [List.length_set]; exact hj),
          List.getD_eq_getElem _ _ hj]
        exact List.getElem_set_ne (show i ≠ j from by omega) _
      rw [hgd]
      have hidx : j - i = (j - (i + 1)) + 1 := by omega
      rw [hidx, List.getD_cons_succ]
    · rw [if_neg h1]
      by_cases h2 : j = i
      · subst h2
        rw [if_pos (show j ≤ j ∧ j < j + (part :: rest).length from by omega)]
        rw [List.getD_eq_getElem _ _ (by rw [List.length_set]; exact hj)]
        rw [List.getElem_set_self _]
        rw [Nat.sub_self, List.getD_cons_zero]
      · rw [if_neg (show ¬(i ≤ j ∧ j < i + (part :: rest).length) from by omega)]
        rw [List.getD_eq_getElem _ _ (by rw [List.length_set]; exact hj),
          List.getD_eq_getElem _ _ hj]
        exact List.getElem_set_ne (show i ≠ j from by omega) _

/-! ### Width-independence of the cleaned data line -/

theorem removeWs_replicate_space (n : Nat) : removeWs (List.replicate n ' ') = [] := by
  induction n with
  | zero => rfl
  | succ n ih => rw [List.replicate_succ, removeWs_cons_space, ih]

theorem removeWs_padWrap (c : Str) (w : Nat) :
    removeWs ([' '] ++ padString c w ++ [' ', '|']) = removeWs c ++ ['|'] := by
  rw [removeWs_append, removeWs_append, padString, removeWs_append,
    removeWs_replicate_space,
    show removeWs ([' '] : Str) = [] from rfl,
    show removeWs ([' ', '|'] : Str) = ['|'] from rfl]
  simp

/-- One cell of the shared data-row reducer, peeled off the front of the
    accumulator-free rendering. -/
theorem dataCellsRender_cons (cols : List ColDef) (idx : Nat) (c : Str) (rest : List Str) :
    dataCellsRender cols idx [] (c :: rest) =
      ([' '] ++ padString c (cols.getD idx defaultCol).width ++ [' ', '|']) ++
        dataCellsRender cols (idx + 1) [] rest := by
  simp only [dataCellsRender]
  rw [dataCellsRender_acc]
  simp

/-- The whitespace-free form of a rendered data row does not depend on the
    column list: the widths only control the space padding. -/
theorem removeWs_dataCellsRender (row : List Str) :
    ∀ (cols cols' : List ColDef) (idx idx' : Nat),
      removeWs (dataCellsRender cols idx [] row) =
        removeWs (dataCellsRender cols' idx' [] row) := by
  induction row with
  | nil => intro _ _ _ _; rfl
  | cons c rest ih =>
    intro cols cols' idx idx'
    rw [dataCellsRender_cons, dataCellsRender_cons, removeWs_append, removeWs_padWrap,
      removeWs_append, removeWs_padWrap, ih cols cols' (idx + 1) (idx' + 1)]

theorem dataRowLine_cons_head (cols : List ColDef) (row : List Str) :
    dataRowLine cols row = '|' :: dataCellsRender cols 0 [] row := by
  rw [dataRowLine, dataCellsRender_acc]
  rfl

/-- Whether a rendered data row passes the Markdown separator test does not
    depend on the column widths it was padded with. -/
theorem mdIsSeparatorRow_dataRowLine (cols cols' : List ColDef) (row : List Str) :
    MarkdownParser.isSeparatorRow (dataRowLine cols row) =
      MarkdownParser.isSeparatorRow (dataRowLine cols' row) := by
  have hrw : removeWs (dataRowLine cols row) = removeWs (dataRowLine cols' row) := by
    rw [dataRowLine_cons_head, dataRowLine_cons_head,
      removeWs_cons_keep (by decide), removeWs_cons_keep (by decide),
      removeWs_dataCellsRender row cols cols' 0 0]
  simp only [MarkdownParser.isSeparatorRow]
  rw [hrw]

/-- The separator branch of the Markdown parser on a cleaned line wrapped in
    bar markers: append the separator row, then apply the alignments read
    from the split of the middle part. -/
theorem mdSeparatorStep_eq (st : Table) (mid : Str) :
    mdSeparatorStep st ('|' :: (mid ++ ['|'])) =
      { st.addRow RowType.Separator [] with
        cols := mdApplyAligns (st.addRow RowType.Separator []).cols 0 (jsSplit '|' mid) } := by
  simp only [mdSeparatorStep]
  rw [jsStartsWith_bar,
    show jsEndsWith ('|' :: (mid ++ ['|'])) ['|'] = true from by
      rw [show ('|' :: (mid ++ ['|'])) = (('|' :: mid) ++ ['|']) from by simp]
      exact jsEndsWith_bar _]
  simp only [if_true]
  rw [jsSlice_wrap]

/-! ### Closed forms of addRow during a re-parse -/

/-- addRow on the empty table with a non-empty values list. -/
theorem addRow_first (ty : RowType) (values : List Str) (hvne : values ≠ []) :
    emptyTable.addRow ty values =
      ⟨0, [ty], updateColWidths (List.replicate values.length defaultCol) values,
        [values]⟩ := by
  have hie : values.isEmpty = false := by
    cases values with
    | nil => exact absurd rfl hvne
    | cons a l => rfl
  simp [Table.addRow, emptyTable, padLoop, hie]

/-- addRow of a full-width data row on a running re-parse state: the rows
    and data are appended and only the column widths update. -/
theorem addRow_exact (st : Table) (ty : RowType) (values : List Str) (M : Nat)
    (hM : 1 ≤ M) (hcols : st.cols.length = M) (hvals : values.length = M)
    (hdata : uniformLen st.data M) (hne : st.data ≠ []) :
    st.addRow ty values =
      { st with
        rows := st.rows ++ [ty],
        cols := updateColWidths st.cols values,
        data := st.data ++ [values] } := by
  have hvne : values ≠ [] := by
    intro h
    subst h
    simp at hvals
    omega
  have hie : values.isEmpty = false := by
    cases values with
    | nil => exact absurd rfl hvne
    | cons a l => rfl
  have hcond : (values.isEmpty && st.cols.isEmpty) = false := by
    rw [hie]
    rfl
  rw [addRow_uniform_eq st ty values M hdata (fun h => absurd h hne)]
  simp only [hcond, Bool.false_eq_true, if_false]
  have hpv : padTo values M = values := padTo_eq_self (le_of_eq hvals.symm)
  have hrep : st.cols ++ List.replicate (values.length - st.cols.length) defaultCol =
      st.cols := by
    rw [hvals, hcols, Nat.sub_self]
    simp
  have hmap : st.data.map (fun r => padTo r values.length) = st.data := by
    rw [show st.data.map (fun r => padTo r values.length) = st.data.map (fun r => r) from
      List.map_congr_left fun r hr => by
        rw [hvals]
        exact padTo_eq_self (le_of_eq (hdata r hr).symm)]
    exact List.map_id' st.data
  rw [hpv, hrep, hmap]

/-- addRow of a separator (empty values list) on a running re-parse state:
    the stored cell list is one empty string per column. -/
theorem addRow_sep_exact (st : Table) (ty : RowType) (M : Nat)
    (hM : 1 ≤ M) (hcols : st.cols.length = M) (hdata : uniformLen st.data M)
    (hne : st.data ≠ []) :
    st.addRow ty [] =
      { st with
        rows := st.rows ++ [ty],
        cols := updateColWidths st.cols (List.replicate M ([] : Str)),
        data := st.data ++ [List.replicate M ([] : Str)] } := by
  have hcolsne : st.cols.isEmpty = false := by
    cases hc : st.cols with
    | nil => rw [hc] at hcols; simp at hcols; omega
    | cons a l => rfl
  have hcond : ((List.nil : List Str).isEmpty && st.cols.isEmpty) = false := by
    rw [hcolsne]
    simp
  rw [addRow_uniform_eq st ty [] M hdata (fun h => absurd h hne)]
  simp only [hcond, Bool.false_eq_true, if_false]
  have hpv : padTo ([] : List Str) M = List.replicate M ([] : Str) := by
    simp [padTo]
  have hrep : st.cols ++ List.replicate (([] : List Str).length - st.cols.length)
      defaultCol = st.cols := by
    simp
  have hmap : st.data.map (fun r => padTo r ([] : List Str).length) = st.data := by
    rw [show st.data.map (fun r => padTo r ([] : List Str).length) =
        st.data.map (fun r => r) from
      List.map_congr_left fun r hr => padTo_zero r]
    exact List.map_id' st.data
  rw [hpv, hrep, hmap]

/-- The width update of addRow never touches the alignments. -/
theorem updateColWidths_alignments (cs : List ColDef) :
    ∀ vs : List Str, (updateColWidths cs vs).map ColDef.alignment =
      cs.map ColDef.alignment := by
  induction cs with
  | nil => intro vs; rfl
  | cons c cs ih => intro vs; simp [updateColWidths, ih]

/-- The width rescan keeps the alignments it is given and computes the same
    widths for any two column lists sharing their alignments. -/
theorem recalcColsAux_congr (data : List (List Str)) :
    ∀ (cols cols' : List ColDef), cols.map ColDef.alignment = cols'.map ColDef.alignment →
    ∀ j, recalcColsAux data cols j = recalcColsAux data cols' j := by
  intro cols
  induction cols with
  | nil =>
    intro cols' h j
    cases cols' with
    | nil => rfl
    | cons c' cs' => simp at h
  | cons c cs ih =>
    intro cols' h j
    cases cols' with
    | nil => simp at h
    | cons c' cs' =>
      simp only [List.map_cons, List.cons.injEq] at h
      simp only [recalcColsAux]
      rw [ih cs' h.2 (j + 1)]
      rcases c with ⟨a, w⟩
      rcases c' with ⟨a', w'⟩
      cases show a = a' from h.1
      rfl

/-! ### Rendered Org separator rows -/

theorem orgSeparatorRender_shape (row : List Str) :
    ∀ (cols : List ColDef) (idx : Nat), row ≠ [] → idx + row.length = cols.length →
    ∃ y : Str, orgSeparatorRender cols idx [] row = ('-' :: y) ++ ['|'] ∧
      ∀ x ∈ orgSeparatorRender cols idx [] row, x = '-' ∨ x = '+' ∨ x = '|' := by
  induction row with
  | nil => intro _ _ h _; exact absurd rfl h
  | cons c rest ih =>
    intro cols idx _ hlen
    have hcell : List.replicate ((cols.getD idx defaultCol).width + 2) '-' =
        '-' :: List.replicate ((cols.getD idx defaultCol).width + 1) '-' := by
      rw [show (cols.getD idx defaultCol).width + 2 =
        ((cols.getD idx defaultCol).width + 1) + 1 from rfl, List.replicate_succ]
    simp only [orgSeparatorRender]
    rw [orgSeparatorRender_acc, List.nil_append]
    rcases rest with _ | ⟨c2, rest2⟩
    · have hlast : idx = cols.length - 1 := by
        simp only [List.length_cons, List.length_nil] at hlen
        omega
      rw [if_pos hlast,
        show orgSeparatorRender cols (idx + 1) [] [] = [] from rfl, List.append_nil, hcell]
      refine ⟨List.replicate ((cols.getD idx defaultCol).width + 1) '-', rfl, ?_⟩
      intro x hx
      rcases List.mem_append.mp hx with hx | hx
      · rcases List.mem_cons.mp hx with hx | hx
        · exact Or.inl hx
        · exact Or.inl (List.eq_of_mem_replicate hx)
      · exact Or.inr (Or.inr (List.mem_singleton.mp hx))
    · have hnotlast : ¬(idx = cols.length - 1) := by
        simp only [List.length_cons] at hlen
        omega
      rw [if_neg hnotlast]
      obtain ⟨y2, hy2, hmem2⟩ := ih cols (idx + 1) (by simp)
        (by simp only [List.length_cons] at hlen ⊢; omega)
      rw [hy2, hcell]
      refine ⟨List.replicate ((cols.getD idx defaultCol).width + 1) '-' ++
        '+' :: ('-' :: y2), by simp, ?_⟩
      intro x hx
      rcases List.mem_append.mp hx with hx | hx
      · rcases List.mem_append.mp hx with hx | hx
        · rcases List.mem_cons.mp hx with hx | hx
          · exact Or.inl hx
          · exact Or.inl (List.eq_of_mem_replicate hx)
        · exact Or.inr (Or.inl (List.mem_singleton.mp hx))
      · rw [hy2] at hmem2
        exact hmem2 x hx

/-- A rendered Org separator line starts with the marker, is trim-stable,
    contains no newline and passes the Org separator test. -/
theorem orgSeparatorLine_facts (cols : List ColDef) (row : List Str) (hne : row ≠ [])
    (hlen : row.length = cols.length) :
    jsStartsWith (orgSeparatorLine cols row) ['|'] = true ∧
    jsTrim (orgSeparatorLine cols row) = orgSeparatorLine cols row ∧
    '\n' ∉ orgSeparatorLine cols row ∧
    OrgParser.isSeparatorRow (orgSeparatorLine cols row) = true := by
  have hline : orgSeparatorLine cols row = '|' :: orgSeparatorRender cols 0 [] row := by
    rw [orgSeparatorLine, orgSeparatorRender_acc]
    rfl
  obtain ⟨y, hy, hmem⟩ := orgSeparatorRender_shape row cols 0 hne (by simpa using hlen)
  refine ⟨?_, ?_, ?_, ?_⟩
  · rw [hline]
    exact jsStartsWith_bar _
  · rw [hline, hy]
    rw [show ('|' :: (('-' :: y) ++ ['|']) : Str) = '|' :: (('-' :: y) ++ ['|']) from rfl]
    exact jsTrim_of_ends (by decide) (by decide) _
  · rw [hline]
    intro hmemn
    rcases List.mem_cons.mp hmemn with h | h
    · exact absurd h (by decide)
    · rcases hmem '\n' h with h | h | h <;> exact absurd h (by decide)
  · rw [hline, hy]
    simp only [OrgParser.isSeparatorRow]
    rw [show (('|' :: ('-' :: y ++ ['|'])) : Str).getD 1 ' ' = '-' from rfl]
    simp

/-! ### Line-classification helpers for the re-parse fold -/

theorem mdRowLine_data (t : Table) (i : Nat)
    (h : t.rows.getD i RowType.Unknown = RowType.Data) :
    mdRowLine t i = dataRowLine t.cols (t.getRow i) := by
  simp only [mdRowLine]
  rw [h]

theorem mdRowLine_sep (t : Table) (i : Nat)
    (h : t.rows.getD i RowType.Unknown = RowType.Separator) :
    mdRowLine t i = mdSeparatorLine t.cols (t.getRow i) := by
  simp only [mdRowLine]
  rw [h]

theorem orgRowLine_data (t : Table) (i : Nat)
    (h : t.rows.getD i RowType.Unknown = RowType.Data) :
    orgRowLine t i = dataRowLine t.cols (t.getRow i) := by
  simp only [orgRowLine]
  rw [h]

theorem orgRowLine_sep (t : Table) (i : Nat)
    (h : t.rows.getD i RowType.Unknown = RowType.Separator) :
    orgRowLine t i = orgSeparatorLine t.cols (t.getRow i) := by
  simp only [orgRowLine]
  rw [h]

theorem mdLineStep_data (st : Table) (s : Str)
    (h : MarkdownParser.isSeparatorRow s = false) :
    mdLineStep st s = st.addRow RowType.Data (dataRowValues s) := by
  simp only [mdLineStep]
  rw [mdIsSeparatorRow_removeWs, h]
  simp only [Bool.false_eq_true, if_false]

theorem mdLineStep_sep (st : Table) (s : Str)
    (h : MarkdownParser.isSeparatorRow s = true) :
    mdLineStep st s = mdSeparatorStep st (removeWs s) := by
  simp only [mdLineStep]
  rw [mdIsSeparatorRow_removeWs, h]
  rw [if_pos rfl]

theorem orgLineStep_data (st : Table) (s : Str)
    (h : OrgParser.isSeparatorRow s = false) :
    orgLineStep st s = st.addRow RowType.Data (dataRowValues s) := by
  simp only [orgLineStep]
  rw [h]
  simp only [Bool.false_eq_true, if_false]

theorem orgLineStep_sep (st : Table) (s : Str)
    (h : OrgParser.isSeparatorRow s = true) :
    orgLineStep st s = st.addRow RowType.Separator [] := by
  simp only [orgLineStep]
  rw [h]
  rw [if_pos rfl]

/-! ### Canonical-form bookkeeping -/

theorem hasSep_of_getD (t : Table) (i : Nat) (hi : i < t.rows.length)
    (h : t.rows.getD i RowType.Unknown = RowType.Separator) :
    hasSeparatorRow t = true := by
  rw [hasSeparatorRow, List.any_eq_true]
  refine ⟨RowType.Separator, ?_, rfl⟩
  rw [List.getD_eq_getElem _ _ hi] at h
  exact List.mem_iff_getElem.mpr ⟨i, hi, h⟩

theorem canonical_row_cases (t : Table) (hnoUnk : ∀ r ∈ t.rows, r ≠ RowType.Unknown)
    (i : Nat) (hi : i < t.rows.length) :
    t.rows.getD i RowType.Unknown = RowType.Data ∨
      t.rows.getD i RowType.Unknown = RowType.Separator := by
  have hmem : t.rows.getD i RowType.Unknown ∈ t.rows := by
    rw [List.getD_eq_getElem _ _ hi]
    exact List.getElem_mem _
  rcases hr : t.rows.getD i RowType.Unknown with _ | _ | _
  · exact absurd rfl (by rw [hr] at hmem; exact hnoUnk _ hmem)
  · exact Or.inr rfl
  · exact Or.inl rfl

theorem canonical_take_uniform (t : Table)
    (hlen : ∀ i, i < t.rows.length → (t.data.getD i []).length = t.cols.length)
    (hdlen : t.data.length = t.rows.length) (k : Nat) :
    uniformLen (t.data.take k) t.cols.length := by
  intro r hr
  rw [List.mem_iff_getElem] at hr
  obtain ⟨i, hi, hri⟩ := hr
  have hi2 : i < t.data.length := by
    rw [List.length_take] at hi
    omega
  rw [List.getElem_take] at hri
  subst hri
  rw [← List.getD_eq_getElem _ ([] : List Str) hi2]
  exact hlen i (by omega)

theorem take_succ_getD_rows (rows : List RowType) (k : Nat) (hk : k < rows.length) :
    rows.take (k + 1) = rows.take k ++ [rows.getD k RowType.Unknown] := by
  rw [List.take_succ, List.getElem?_eq_getElem hk, List.getD_eq_getElem _ _ hk]
  rfl

theorem take_succ_getD_data (data : List (List Str)) (k : Nat) (hk : k < data.length) :
    data.take (k + 1) = data.take k ++ [data.getD k []] := by
  rw [List.take_succ, List.getElem?_eq_getElem hk, List.getD_eq_getElem _ _ hk]
  rfl

theorem lines_take_succ (f : Nat → Str) (N k : Nat) (hk : k < N) :
    ((List.range N).map f).take (k + 1) = ((List.range N).map f).take k ++ [f k] := by
  have hlk : ((List.range N).map f)[k]? = some (f k) := by
    have hk2 : k < ((List.range N).map f).length := by
      simp [hk]
    rw [List.getElem?_eq_getElem hk2]
    simp
  rw [List.take_succ, hlk]
  rfl

/-- The UTF-16 length of a string of basic-plane characters is its character
    count. -/
theorem jsLength_eq_length (s : Str) (h : ∀ ch ∈ s, ch.toNat < 0x10000) :
    jsLength s = s.length := by
  induction s with
  | nil => rfl
  | cons c cs ih =>
    have hc : c.toNat < 0x10000 := h c (List.mem_cons_self _ _)
    simp only [jsLength, utf16Encode, List.map_cons, List.flatten_cons]
    rw [if_pos hc]
    simp only [List.singleton_append, List.length_cons]
    have ih2 := ih (fun ch hch => h ch (List.mem_cons_of_mem _ hch))
    simp only [jsLength, utf16Encode] at ih2
    rw [ih2]

/-- Every character of a whitespace-free separator pattern lies in the basic
    plane. -/
theorem mdSepPattern_bmp (c : ColDef) : ∀ x ∈ mdSepPattern c, x.toNat < 0x10000 := by
  obtain ⟨b, e, hb, he, hshape⟩ := mdSepPattern_shape c
  rw [hshape]
  intro x hx
  rcases List.mem_cons.mp hx with rfl | hx
  · rcases hb with rfl | rfl <;> decide
  · rcases List.mem_append.mp hx with hx | hx
    · rw [List.eq_of_mem_replicate hx]
      decide
    · rw [List.mem_singleton.mp hx]
      rcases he with rfl | rfl <;> decide

/-- The alignment extraction applied to the split of a re-parsed rendered
    separator row recovers exactly the alignments of the rendered columns:
    length and alignment map of the resulting column list. -/
theorem md_sep_step_alignments (tcols cols2 : List ColDef)
    (hc2 : cols2.length = tcols.length) (hM : 1 ≤ tcols.length)
    (row : List Str) (hrl : row.length = tcols.length) (hne : row ≠ []) :
    (mdApplyAligns cols2 0 (jsSplit '|'
        ((removeWs (mdSeparatorRender (raiseWidthsTo3 tcols) 0 [] row)).dropLast))).length =
      tcols.length ∧
    (mdApplyAligns cols2 0 (jsSplit '|'
        ((removeWs (mdSeparatorRender (raiseWidthsTo3 tcols) 0 [] row)).dropLast))).map
      ColDef.alignment = tcols.map ColDef.alignment := by
  have hsplit : jsSplit '|'
      ((removeWs (mdSeparatorRender (raiseWidthsTo3 tcols) 0 [] row)).dropLast) =
      (List.range tcols.length).map
        (fun k => mdSepPattern ((raiseWidthsTo3 tcols).getD k defaultCol)) := by
    rw [md_sep_split row (raiseWidthsTo3 tcols) 0 hne, hrl]
    exact List.map_congr_left fun k _ => by rw [Nat.zero_add]
  rw [hsplit]
  have hparts_len : ((List.range tcols.length).map
      (fun k => mdSepPattern ((raiseWidthsTo3 tcols).getD k defaultCol))).length =
      tcols.length := by
    simp
  have hwidth3 : ∀ k, k < tcols.length → 3 ≤ ((raiseWidthsTo3 tcols).getD k defaultCol).width := by
    intro k hk
    rw [raiseWidthsTo3_getD _ _ hk]
    exact le_max_right _ _
  have hparts3 : ∀ p ∈ (List.range tcols.length).map
      (fun k => mdSepPattern ((raiseWidthsTo3 tcols).getD k defaultCol)), 3 ≤ jsLength p := by
    intro p hp
    rw [List.mem_map] at hp
    obtain ⟨k, hk, rfl⟩ := hp
    rw [List.mem_range] at hk
    rw [jsLength_eq_length _ (mdSepPattern_bmp _)]
    rw [mdSepPattern_length _ (Nat.le_trans (by decide) (hwidth3 k hk))]
    exact hwidth3 k hk
  obtain ⟨hslen, hsget⟩ := mdApplyAligns_spec _ cols2 0 hparts3
    (by rw [hc2, Nat.zero_add, hparts_len])
  refine ⟨by rw [hslen, hc2], ?_⟩
  apply List.ext_getElem
  · simp only [List.length_map]
    rw [hslen, hc2]
  · intro j h1 h2
    simp only [List.length_map] at h1 h2
    have hj : j < tcols.length := h2
    rw [List.getElem_map, List.getElem_map]
    have hjc2 : j < cols2.length := by omega
    have hga := hsget j hjc2
    rw [if_pos (show 0 ≤ j ∧ j < 0 + ((List.range tcols.length).map
        (fun k => mdSepPattern ((raiseWidthsTo3 tcols).getD k defaultCol))).length from by
      rw [Nat.zero_add, hparts_len]
      exact ⟨Nat.zero_le _, hj⟩)] at hga
    have hpam : ((List.range tcols.length).map
        (fun k => mdSepPattern ((raiseWidthsTo3 tcols).getD k defaultCol))).getD (j - 0) [] =
        mdSepPattern ((raiseWidthsTo3 tcols).getD j defaultCol) := by
      rw [Nat.sub_zero, List.getD_eq_getElem _ _ (by rw [hparts_len]; exact hj)]
      simp
    rw [hpam] at hga
    have hleft : (mdApplyAligns cols2 0 ((List.range tcols.length).map
        (fun k => mdSepPattern ((raiseWidthsTo3 tcols).getD k defaultCol))))[j].alignment =
        mdAlignOf (mdSepPattern ((raiseWidthsTo3 tcols).getD j defaultCol)) := by
      rw [← List.getD_eq_getElem _ defaultCol h1, hga]
    rw [hleft, mdAlignOf_pattern _ (hwidth3 j hj), raiseWidthsTo3_getD _ _ hj,
      List.getD_eq_getElem _ _ hj]

/-- The line-by-line fold of MarkdownParser.parse over the stringified lines
    of a canonical table: after k lines the state holds the first k rows and
    stored cell lists verbatim, and a column list of full length whose
    alignments are the table's own once a separator line has been processed
    and the all-left default before. -/
theorem md_parse_fold (t : Table)
    (hM1 : 1 ≤ t.cols.length)
    (hdlen : t.data.length = t.rows.length)
    (hhead : t.rows.head? = some RowType.Data)
    (hrowfacts : ∀ i, i < t.rows.length →
      (t.rows.getD i RowType.Unknown = RowType.Data →
        (t.data.getD i []).length = t.cols.length ∧ ∀ c ∈ t.data.getD i [], cellOk c) ∧
      (t.rows.getD i RowType.Unknown = RowType.Separator →
        t.data.getD i [] = List.replicate t.cols.length []))
    (hnoUnk : ∀ r ∈ t.rows, r ≠ RowType.Unknown)
    (hnosep : ∀ i, i < t.rows.length → t.rows.getD i RowType.Unknown = RowType.Data →
      MarkdownParser.isSeparatorRow (dataRowLine t.cols (t.data.getD i [])) = false) :
    ∀ k, 1 ≤ k → k ≤ t.rows.length →
    ∃ colsk : List ColDef,
      (((List.range t.rows.length).map (mdRowLine (mdRenderTable t))).take k).foldl
          mdLineStep emptyTable =
        ⟨0, t.rows.take k, colsk, t.data.take k⟩ ∧
      colsk.length = t.cols.length ∧
      colsk.map ColDef.alignment =
        (if (t.rows.take k).any (· == RowType.Separator) = true then
          t.cols.map ColDef.alignment
        else List.replicate t.cols.length Alignment.Left) := by
  have hrowlen : ∀ i, i < t.rows.length →
      (t.data.getD i []).length = t.cols.length := by
    intro i hi
    rcases canonical_row_cases t hnoUnk i hi with hD | hS
    · exact ((hrowfacts i hi).1 hD).1
    · rw [(hrowfacts i hi).2 hS]
      simp
  have huni : ∀ k, uniformLen (t.data.take k) t.cols.length :=
    fun k => canonical_take_uniform t hrowlen hdlen k
  have hN1 : 1 ≤ t.rows.length := by
    cases ht : t.rows with
    | nil => rw [ht] at hhead; cases hhead
    | cons r rs => simp
  have hrow0 : t.rows.getD 0 RowType.Unknown = RowType.Data := by
    cases ht : t.rows with
    | nil => rw [ht] at hhead; cases hhead
    | cons r rs =>
      rw [ht] at hhead
      simp at hhead
      simpa using hhead
  intro k
  induction k with
  | zero => intro h; exact absurd h (by decide)
  | succ k ih =>
    intro _ hkN
    by_cases hk0 : k = 0
    · subst hk0
      have hrow0len : (t.data.getD 0 []).length = t.cols.length :=
        ((hrowfacts 0 hN1).1 hrow0).1
      have hok0 : ∀ c ∈ t.data.getD 0 [], cellOk c := ((hrowfacts 0 hN1).1 hrow0).2
      have hne0 : t.data.getD 0 [] ≠ [] := by
        intro h
        rw [h] at hrow0len
        simp at hrow0len
        omega
      have hline0 : mdRowLine (mdRenderTable t) 0 =
          dataRowLine (mdRenderTable t).cols (t.data.getD 0 []) := by
        rw [mdRowLine_data (mdRenderTable t) 0 (by rw [mdRenderTable_rows]; exact hrow0)]
        rw [Table.getRow, mdRenderTable_data]
      have hsep0 : MarkdownParser.isSeparatorRow (mdRowLine (mdRenderTable t) 0) = false := by
        rw [hline0, mdIsSeparatorRow_dataRowLine _ t.cols]
        exact hnosep 0 hN1 hrow0
      rw [lines_take_succ _ _ 0 hN1, List.take_zero, List.nil_append]
      simp only [List.foldl_cons, List.foldl_nil]
      rw [mdLineStep_data _ _ hsep0, hline0,
        (dataRowLine_facts (mdRenderTable t).cols (t.data.getD 0 []) hne0 hok0).2.2.2.2,
        addRow_first RowType.Data _ hne0]
      refine ⟨updateColWidths (List.replicate (t.data.getD 0 []).length defaultCol)
        (t.data.getD 0 []), ?_, ?_, ?_⟩
      · rw [take_succ_getD_rows t.rows 0 hN1, hrow0,
          take_succ_getD_data t.data 0 (by omega), List.take_zero, List.take_zero]
        rfl
      · rw [updateColWidths_length, List.length_replicate, hrow0len]
      · have hc0 : (t.rows.take (0 + 1)).any (· == RowType.Separator) = false := by
          rw [take_succ_getD_rows t.rows 0 hN1, hrow0, List.take_zero]
          rfl
        rw [hc0]
        simp only [Bool.false_eq_true, if_false]
        rw [updateColWidths_alignments, List.map_replicate, hrow0len]
        rfl
    · have hk1 : 1 ≤ k := Nat.one_le_iff_ne_zero.mpr hk0
      have hkN' : k < t.rows.length := by omega
      obtain ⟨colsk, hfold, hclen, halign⟩ := ih hk1 (by omega)
      have hdne : t.data.take k ≠ [] := by
        have hpos : 0 < (t.data.take k).length := by
          rw [List.length_take]
          omega
        exact List.length_pos.mp hpos
      rw [lines_take_succ _ _ k hkN', List.foldl_append, hfold]
      simp only [List.foldl_cons, List.foldl_nil]
      rcases canonical_row_cases t hnoUnk k hkN' with hD | hD'
      · -- data line
        have hklen : (t.data.getD k []).length = t.cols.length :=
          ((hrowfacts k hkN').1 hD).1
        have hokk : ∀ c ∈ t.data.getD k [], cellOk c := ((hrowfacts k hkN').1 hD).2
        have hnek : t.data.getD k [] ≠ [] := by
          intro h
          rw [h] at hklen
          simp at hklen
          omega
        have hlinek : mdRowLine (mdRenderTable t) k =
            dataRowLine (mdRenderTable t).cols (t.data.getD k []) := by
          rw [mdRowLine_data (mdRenderTable t) k (by rw [mdRenderTable_rows]; exact hD)]
          rw [Table.getRow, mdRenderTable_data]
        have hsepk : MarkdownParser.isSeparatorRow (mdRowLine (mdRenderTable t) k) =
            false := by
          rw [hlinek, mdIsSeparatorRow_dataRowLine _ t.cols]
          exact hnosep k hkN' hD
        rw [mdLineStep_data _ _ hsepk, hlinek,
          (dataRowLine_facts (mdRenderTable t).cols (t.data.getD k []) hnek hokk).2.2.2.2,
          addRow_exact _ RowType.Data (t.data.getD k []) t.cols.length hM1 hclen hklen
            (huni k) hdne]
        refine ⟨updateColWidths colsk (t.data.getD k []), ?_, ?_, ?_⟩
        · show (⟨0, t.rows.take k ++ [RowType.Data],
            updateColWidths colsk (t.data.getD k []),
            t.data.take k ++ [t.data.getD k []]⟩ : Table) = _
          rw [take_succ_getD_rows t.rows k hkN', hD,
            take_succ_getD_data t.data k (by omega)]
        · rw [updateColWidths_length, hclen]
        · have hcondeq : (t.rows.take (k + 1)).any (· == RowType.Separator) =
              (t.rows.take k).any (· == RowType.Separator) := by
            rw [take_succ_getD_rows t.rows k hkN', hD, List.any_append,
              show (([RowType.Data] : List RowType).any (· == RowType.Separator)) = false
                from rfl, Bool.or_false]
          rw [updateColWidths_alignments, hcondeq]
          exact halign
      · -- separator line
        have hsept : hasSeparatorRow t = true := hasSep_of_getD t k hkN' hD'
        have hrtc : (mdRenderTable t).cols = raiseWidthsTo3 t.cols :=
          mdRenderTable_cols_sep t hsept
        have hrep : t.data.getD k [] = List.replicate t.cols.length [] :=
          (hrowfacts k hkN').2 hD'
        have hnek : t.data.getD k [] ≠ [] := by
          rw [hrep]
          intro hcon
          have hl : t.cols.length = 0 := by
            have hl2 := congrArg List.length hcon
            simpa using hl2
          omega
        have hlinek : mdRowLine (mdRenderTable t) k =
            mdSeparatorLine (mdRenderTable t).cols (t.data.getD k []) := by
          rw [mdRowLine_sep (mdRenderTable t) k (by rw [mdRenderTable_rows]; exact hD')]
          rw [Table.getRow, mdRenderTable_data]
        have hw0 : 3 ≤ ((mdRenderTable t).cols.getD 0 defaultCol).width := by
          rw [hrtc, raiseWidthsTo3_getD _ _ (by omega)]
          exact le_max_right _ _
        have hsline : MarkdownParser.isSeparatorRow (mdRowLine (mdRenderTable t) k) =
            true := by
          rw [hlinek]
          exact (mdSeparatorLine_facts (mdRenderTable t).cols (t.data.getD k [])
            hnek hw0).2.2.2
        rw [mdLineStep_sep _ _ hsline]
        have hline2 : mdSeparatorLine (mdRenderTable t).cols (t.data.getD k []) =
            '|' :: mdSeparatorRender (mdRenderTable t).cols 0 [] (t.data.getD k []) := by
          rw [mdSeparatorLine, mdSeparatorRender_acc]
          rfl
        obtain ⟨y, hy⟩ := md_sep_shape (t.data.getD k []) (mdRenderTable t).cols 0 hnek
        have hrmv : removeWs (mdRowLine (mdRenderTable t) k) = '|' :: (y ++ ['|']) := by
          rw [hlinek, hline2, removeWs_cons_keep (by decide), hy]
        rw [hrmv, mdSeparatorStep_eq,
          addRow_sep_exact _ RowType.Separator t.cols.length hM1 hclen (huni k) hdne]
        have hyd : y = (removeWs (mdSeparatorRender (raiseWidthsTo3 t.cols) 0 []
            (t.data.getD k []))).dropLast := by
          rw [← hrtc, hy, List.dropLast_concat]
        have hc2 : (updateColWidths colsk (List.replicate t.cols.length [])).length =
            t.cols.length := by
          rw [updateColWidths_length, hclen]
        obtain ⟨hflen, hfali⟩ := md_sep_step_alignments t.cols
          (updateColWidths colsk (List.replicate t.cols.length [])) hc2 hM1
          (t.data.getD k []) (by rw [hrep]; simp) hnek
        rw [← hyd] at hflen hfali
        refine ⟨mdApplyAligns (updateColWidths colsk (List.replicate t.cols.length []))
          0 (jsSplit '|' y), ?_, ?_, ?_⟩
        · show (⟨0, t.rows.take k ++ [RowType.Separator],
            mdApplyAligns (updateColWidths colsk (List.replicate t.cols.length []))
              0 (jsSplit '|' y),
            t.data.take k ++ [List.replicate t.cols.length []]⟩ : Table) = _
          rw [take_succ_getD_rows t.rows k hkN', hD',
            take_succ_getD_data t.data k (by omega), hrep]
        · exact hflen
        · have hcond : (t.rows.take (k + 1)).any (· == RowType.Separator) = true := by
            rw [take_succ_getD_rows t.rows k hkN', hD', List.any_append,
              show (([RowType.Separator] : List RowType).any (· == RowType.Separator)) =
                true from rfl, Bool.or_true]
          rw [if_pos hcond]
          exact hfali

/-- Re-parsing the Markdown rendering of a canonical table recovers the
    table exactly (with the parser's fresh start line). -/
theorem md_roundtrip (t : Table) (h : canonicalMd t) :
    MarkdownParser.parse (MarkdownStringifier.stringify t) =
      some ⟨0, t.rows, t.cols, t.data⟩ := by
  obtain ⟨⟨hM1, hdlen, hhead, hrowfacts, hnoUnk, hconsist⟩, hnosep, halignL⟩ := h
  have hN1 : 1 ≤ t.rows.length := by
    cases ht : t.rows with
    | nil => rw [ht] at hhead; cases hhead
    | cons r rs => simp
  have hrowlen : ∀ i, i < t.rows.length →
      (t.data.getD i []).length = t.cols.length := by
    intro i hi
    rcases canonical_row_cases t hnoUnk i hi with hD | hS
    · exact ((hrowfacts i hi).1 hD).1
    · rw [(hrowfacts i hi).2 hS]
      simp
  have hlf : ∀ i, i < t.rows.length →
      jsStartsWith (mdRowLine (mdRenderTable t) i) ['|'] = true ∧
      jsTrim (mdRowLine (mdRenderTable t) i) = mdRowLine (mdRenderTable t) i ∧
      '\n' ∉ mdRowLine (mdRenderTable t) i := by
    intro i hi
    have hne : t.data.getD i [] ≠ [] := by
      intro hcon
      have := hrowlen i hi
      rw [hcon] at this
      simp at this
      omega
    rcases canonical_row_cases t hnoUnk i hi with hD | hS
    · have hline : mdRowLine (mdRenderTable t) i =
          dataRowLine (mdRenderTable t).cols (t.data.getD i []) := by
        rw [mdRowLine_data (mdRenderTable t) i (by rw [mdRenderTable_rows]; exact hD)]
        rw [Table.getRow, mdRenderTable_data]
      obtain ⟨h1, h2, h3, -, -⟩ := dataRowLine_facts (mdRenderTable t).cols
        (t.data.getD i []) hne ((hrowfacts i hi).1 hD).2
      rw [hline]
      exact ⟨h1, h2, h3⟩
    · have hsept : hasSeparatorRow t = true := hasSep_of_getD t i hi hS
      have hline : mdRowLine (mdRenderTable t) i =
          mdSeparatorLine (mdRenderTable t).cols (t.data.getD i []) := by
        rw [mdRowLine_sep (mdRenderTable t) i (by rw [mdRenderTable_rows]; exact hS)]
        rw [Table.getRow, mdRenderTable_data]
      have hw0 : 3 ≤ ((mdRenderTable t).cols.getD 0 defaultCol).width := by
        rw [mdRenderTable_cols_sep t hsept, raiseWidthsTo3_getD _ _ (by omega)]
        exact le_max_right _ _
      obtain ⟨h1, h2, h3, -⟩ := mdSeparatorLine_facts (mdRenderTable t).cols
        (t.data.getD i []) hne hw0
      rw [hline]
      exact ⟨h1, h2, h3⟩
  have hLlen : ((List.range t.rows.length).map (mdRowLine (mdRenderTable t))).length =
      t.rows.length := by
    simp
  have hLne : (List.range t.rows.length).map (mdRowLine (mdRenderTable t)) ≠ [] := by
    intro hcon
    have hz : t.rows.length = 0 := by
      rw [← hLlen, hcon]
      rfl
    omega
  have hmemline : ∀ l ∈ (List.range t.rows.length).map (mdRowLine (mdRenderTable t)),
      ∃ i, i < t.rows.length ∧ l = mdRowLine (mdRenderTable t) i := by
    intro l hl
    rw [List.mem_map] at hl
    obtain ⟨i, hi, rfl⟩ := hl
    rw [List.mem_range] at hi
    exact ⟨i, hi, rfl⟩
  have hsplit : (List.intercalate ['\n']
      ((List.range t.rows.length).map (mdRowLine (mdRenderTable t)))).splitOn '\n' =
      (List.range t.rows.length).map (mdRowLine (mdRenderTable t)) := by
    apply List.splitOn_intercalate
    · intro l hl
      obtain ⟨i, hi, rfl⟩ := hmemline l hl
      exact (hlf i hi).2.2
    · exact hLne
  have hTne : List.intercalate ['\n']
      ((List.range t.rows.length).map (mdRowLine (mdRenderTable t))) ≠ [] := by
    intro hT
    rw [hT] at hsplit
    rw [show (([] : Str).splitOn '\n') = [[]] from rfl] at hsplit
    have hf0mem : mdRowLine (mdRenderTable t) 0 ∈
        (List.range t.rows.length).map (mdRowLine (mdRenderTable t)) := by
      rw [List.mem_map]
      refine ⟨0, ?_, rfl⟩
      rw [List.mem_range]
      omega
    rw [← hsplit] at hf0mem
    have h2 : mdRowLine (mdRenderTable t) 0 = [] := List.mem_singleton.mp hf0mem
    have h3 := (hlf 0 (by omega)).1
    rw [h2] at h3
    exact absurd h3 (by decide)
  have hmap : ((List.range t.rows.length).map (mdRowLine (mdRenderTable t))).map jsTrim =
      (List.range t.rows.length).map (mdRowLine (mdRenderTable t)) := by
    rw [show ((List.range t.rows.length).map (mdRowLine (mdRenderTable t))).map jsTrim =
        ((List.range t.rows.length).map (mdRowLine (mdRenderTable t))).map (fun l => l) from
      List.map_congr_left fun l hl => by
        obtain ⟨i, hi, rfl⟩ := hmemline l hl
        exact (hlf i hi).2.1]
    exact List.map_id' _
  have hfilter : ((List.range t.rows.length).map (mdRowLine (mdRenderTable t))).filter
      (fun x => jsStartsWith x ['|']) =
      (List.range t.rows.length).map (mdRowLine (mdRenderTable t)) := by
    apply List.filter_eq_self.mpr
    intro l hl
    obtain ⟨i, hi, rfl⟩ := hmemline l hl
    exact (hlf i hi).1
  obtain ⟨colsN, hfold, hclen, halign⟩ := md_parse_fold t hM1 hdlen hhead hrowfacts
    hnoUnk hnosep t.rows.length hN1 (le_refl _)
  have hLfull : ((List.range t.rows.length).map (mdRowLine (mdRenderTable t))).take
      t.rows.length = (List.range t.rows.length).map (mdRowLine (mdRenderTable t)) := by
    have htl := List.take_length
      ((List.range t.rows.length).map (mdRowLine (mdRenderTable t)))
    rw [hLlen] at htl
    exact htl
  rw [hLfull] at hfold
  rw [List.take_length] at hfold halign
  rw [show t.data.take t.rows.length = t.data from by rw [← hdlen]; exact List.take_length _]
    at hfold
  have hrecalc : ∀ cN : List ColDef, cN.map ColDef.alignment = t.cols.map ColDef.alignment →
      (⟨0, t.rows, cN, t.data⟩ : Table).recalculateColumnWidths =
        ⟨0, t.rows, t.cols, t.data⟩ := by
    intro cN hali
    have hc := recalcColsAux_congr t.data cN t.cols hali 0
    have hcw : (if t.rows.any (· == RowType.Separator) = true then
        raiseWidthsTo3 (recalcColsAux t.data t.cols 0)
      else recalcColsAux t.data t.cols 0) = t.cols := by
      have hcw0 : t.recalculateColumnWidths.cols = t.cols := hconsist
      simp only [Table.recalculateColumnWidths, hasSeparatorRow] at hcw0
      exact hcw0
    show (⟨0, t.rows, cN, t.data⟩ : Table).recalculateColumnWidths =
      ⟨0, t.rows, t.cols, t.data⟩
    simp only [Table.recalculateColumnWidths, hasSeparatorRow]
    rw [hc, hcw]
  have haligneq : colsN.map ColDef.alignment = t.cols.map ColDef.alignment := by
    by_cases hsept : t.rows.any (· == RowType.Separator) = true
    · rw [halign, if_pos hsept]
    · rw [halign, if_neg hsept]
      have hreplic : t.cols.map ColDef.alignment =
          List.replicate t.cols.length Alignment.Left := by
        apply List.eq_replicate_iff.mpr
        refine ⟨by simp, ?_⟩
        intro b hb
        rw [List.mem_map] at hb
        obtain ⟨c, hc, rfl⟩ := hb
        exact halignL (by
          rw [hasSeparatorRow]
          exact Bool.eq_false_iff.mpr hsept) c hc
      rw [hreplic]
  simp only [MarkdownParser.parse]
  rw [md_stringify_eq, mdRenderTable_rows]
  rw [if_neg (show ¬((List.intercalate ['\n']
      ((List.range t.rows.length).map (mdRowLine (mdRenderTable t)))).isEmpty = true) from by
    intro hc
    exact hTne (by
      cases hT : List.intercalate ['\n']
          ((List.range t.rows.length).map (mdRowLine (mdRenderTable t))) with
      | nil => rfl
      | cons a l => rw [hT] at hc; cases hc))]
  rw [show jsSplit '\n' (List.intercalate ['\n']
      ((List.range t.rows.length).map (mdRowLine (mdRenderTable t)))) =
      (List.intercalate ['\n']
        ((List.range t.rows.length).map (mdRowLine (mdRenderTable t)))).splitOn '\n'
      from rfl]
  rw [hsplit, hmap, hfilter, hfold]
  rw [hrecalc colsN haligneq]

/-- The line-by-line fold of OrgParser.parse over the stringified lines of a
    canonical table: after k lines the state holds the first k rows and
    stored cell lists verbatim, and a column list of full length whose
    alignments are all the default left (Org encodes no alignment). -/
theorem org_parse_fold (t : Table)
    (hM1 : 1 ≤ t.cols.length)
    (hdlen : t.data.length = t.rows.length)
    (hhead : t.rows.head? = some RowType.Data)
    (hrowfacts : ∀ i, i < t.rows.length →
      (t.rows.getD i RowType.Unknown = RowType.Data →
        (t.data.getD i []).length = t.cols.length ∧ ∀ c ∈ t.data.getD i [], cellOk c) ∧
      (t.rows.getD i RowType.Unknown = RowType.Separator →
        t.data.getD i [] = List.replicate t.cols.length []))
    (hnoUnk : ∀ r ∈ t.rows, r ≠ RowType.Unknown) :
    ∀ k, 1 ≤ k → k ≤ t.rows.length →
    ∃ colsk : List ColDef,
      (((List.range t.rows.length).map (orgRowLine t)).take k).foldl
          orgLineStep emptyTable =
        ⟨0, t.rows.take k, colsk, t.data.take k⟩ ∧
      colsk.length = t.cols.length ∧
      colsk.map ColDef.alignment = List.replicate t.cols.length Alignment.Left := by
  have hrowlen : ∀ i, i < t.rows.length →
      (t.data.getD i []).length = t.cols.length := by
    intro i hi
    rcases canonical_row_cases t hnoUnk i hi with hD | hS
    · exact ((hrowfacts i hi).1 hD).1
    · rw [(hrowfacts i hi).2 hS]
      simp
  have huni : ∀ k, uniformLen (t.data.take k) t.cols.length :=
    fun k => canonical_take_uniform t hrowlen hdlen k
  have hN1 : 1 ≤ t.rows.length := by
    cases ht : t.rows with
    | nil => rw [ht] at hhead; cases hhead
    | cons r rs => simp
  have hrow0 : t.rows.getD 0 RowType.Unknown = RowType.Data := by
    cases ht : t.rows with
    | nil => rw [ht] at hhead; cases hhead
    | cons r rs =>
      rw [ht] at hhead
      simp at hhead
      simpa using hhead
  intro k
  induction k with
  | zero => intro h; exact absurd h (by decide)
  | succ k ih =>
    intro _ hkN
    by_cases hk0 : k = 0
    · subst hk0
      have hrow0len : (t.data.getD 0 []).length = t.cols.length :=
        ((hrowfacts 0 hN1).1 hrow0).1
      have hok0 : ∀ c ∈ t.data.getD 0 [], cellOk c := ((hrowfacts 0 hN1).1 hrow0).2
      have hne0 : t.data.getD 0 [] ≠ [] := by
        intro h
        rw [h] at hrow0len
        simp at hrow0len
        omega
      have hline0 : orgRowLine t 0 = dataRowLine t.cols (t.data.getD 0 []) := by
        rw [orgRowLine_data t 0 hrow0, Table.getRow]
      have hsep0 : OrgParser.isSeparatorRow (orgRowLine t 0) = false := by
        rw [hline0]
        exact (dataRowLine_facts t.cols (t.data.getD 0 []) hne0 hok0).2.2.2.1
      rw [lines_take_succ _ _ 0 hN1, List.take_zero, List.nil_append]
      simp only [List.foldl_cons, List.foldl_nil]
      rw [orgLineStep_data _ _ hsep0, hline0,
        (dataRowLine_facts t.cols (t.data.getD 0 []) hne0 hok0).2.2.2.2,
        addRow_first RowType.Data _ hne0]
      refine ⟨updateColWidths (List.replicate (t.data.getD 0 []).length defaultCol)
        (t.data.getD 0 []), ?_, ?_, ?_⟩
      · rw [take_succ_getD_rows t.rows 0 hN1, hrow0,
          take_succ_getD_data t.data 0 (by omega), List.take_zero, List.take_zero]
        rfl
      · rw [updateColWidths_length, List.length_replicate, hrow0len]
      · rw [updateColWidths_alignments, List.map_replicate, hrow0len]
        rfl
    · have hk1 : 1 ≤ k := Nat.one_le_iff_ne_zero.mpr hk0
      have hkN' : k < t.rows.length := by omega
      obtain ⟨colsk, hfold, hclen, halign⟩ := ih hk1 (by omega)
      have hdne : t.data.take k ≠ [] := by
        have hpos : 0 < (t.data.take k).length := by
          rw [List.length_take]
          omega
        exact List.length_pos.mp hpos
      rw [lines_take_succ _ _ k hkN', List.foldl_append, hfold]
      simp only [List.foldl_cons, List.foldl_nil]
      rcases canonical_row_cases t hnoUnk k hkN' with hD | hD'
      · have hklen : (t.data.getD k []).length = t.cols.length :=
          ((hrowfacts k hkN').1 hD).1
        have hokk : ∀ c ∈ t.data.getD k [], cellOk c := ((hrowfacts k hkN').1 hD).2
        have hnek : t.data.getD k [] ≠ [] := by
          intro h
          rw [h] at hklen
          simp at hklen
          omega
        have hlinek : orgRowLine t k = dataRowLine t.cols (t.data.getD k []) := by
          rw [orgRowLine_data t k hD, Table.getRow]
        have hsepk : OrgParser.isSeparatorRow (orgRowLine t k) = false := by
          rw [hlinek]
          exact (dataRowLine_facts t.cols (t.data.getD k []) hnek hokk).2.2.2.1
        rw [orgLineStep_data _ _ hsepk, hlinek,
          (dataRowLine_facts t.cols (t.data.getD k []) hnek hokk).2.2.2.2,
          addRow_exact _ RowType.Data (t.data.getD k []) t.cols.length hM1 hclen hklen
            (huni k) hdne]
        refine ⟨updateColWidths colsk (t.data.getD k []), ?_, ?_, ?_⟩
        · show (⟨0, t.rows.take k ++ [RowType.Data],
            updateColWidths colsk (t.data.getD k []),
            t.data.take k ++ [t.data.getD k []]⟩ : Table) = _
          rw [take_succ_getD_rows t.rows k hkN', hD,
            take_succ_getD_data t.data k (by omega)]
        · rw [updateColWidths_length, hclen]
        · rw [updateColWidths_alignments]
          exact halign
      · have hrep : t.data.getD k [] = List.replicate t.cols.length [] :=
          (hrowfacts k hkN').2 hD'
        have hnek : t.data.getD k [] ≠ [] := by
          rw [hrep]
          intro hcon
          have hl : t.cols.length = 0 := by
            have hl2 := congrArg List.length hcon
            simpa using hl2
          omega
        have hlinek : orgRowLine t k = orgSeparatorLine t.cols (t.data.getD k []) := by
          rw [orgRowLine_sep t k hD', Table.getRow]
        have hsepk : OrgParser.isSeparatorRow (orgRowLine t k) = true := by
          rw [hlinek]
          exact (orgSeparatorLine_facts t.cols (t.data.getD k []) hnek
            (by rw [hrep]; simp)).2.2.2
        rw [orgLineStep_sep _ _ hsepk,
          addRow_sep_exact _ RowType.Separator t.cols.length hM1 hclen (huni k) hdne]
        refine ⟨updateColWidths colsk (List.replicate t.cols.length []), ?_, ?_, ?_⟩
        · show (⟨0, t.rows.take k ++ [RowType.Separator],
            updateColWidths colsk (List.replicate t.cols.length []),
            t.data.take k ++ [List.replicate t.cols.length []]⟩ : Table) = _
          rw [take_succ_getD_rows t.rows k hkN', hD',
            take_succ_getD_data t.data k (by omega), hrep]
        · rw [updateColWidths_length, hclen]
        · rw [updateColWidths_alignments]
          exact halign

/-- Re-parsing the Org rendering of a canonical table recovers the table
    exactly (with the parser's fresh start line). -/
theorem org_roundtrip (t : Table) (h : canonicalOrg t) :
    OrgParser.parse (OrgStringifier.stringify t) =
      some ⟨0, t.rows, t.cols, t.data⟩ := by
  obtain ⟨⟨hM1, hdlen, hhead, hrowfacts, hnoUnk, hconsist⟩, halignL⟩ := h
  have hN1 : 1 ≤ t.rows.length := by
    cases ht : t.rows with
    | nil => rw [ht] at hhead; cases hhead
    | cons r rs => simp
  have hrowlen : ∀ i, i < t.rows.length →
      (t.data.getD i []).length = t.cols.length := by
    intro i hi
    rcases canonical_row_cases t hnoUnk i hi with hD | hS
    · exact ((hrowfacts i hi).1 hD).1
    · rw [(hrowfacts i hi).2 hS]
      simp
  have hlf : ∀ i, i < t.rows.length →
      jsStartsWith (orgRowLine t i) ['|'] = true ∧
      jsTrim (orgRowLine t i) = orgRowLine t i ∧
      '\n' ∉ orgRowLine t i := by
    intro i hi
    have hne : t.data.getD i [] ≠ [] := by
      intro hcon
      have hcl := hrowlen i hi
      rw [hcon] at hcl
      simp at hcl
      omega
    rcases canonical_row_cases t hnoUnk i hi with hD | hS
    · have hline : orgRowLine t i = dataRowLine t.cols (t.data.getD i []) := by
        rw [orgRowLine_data t i hD, Table.getRow]
      obtain ⟨h1, h2, h3, -, -⟩ := dataRowLine_facts t.cols
        (t.data.getD i []) hne ((hrowfacts i hi).1 hD).2
      rw [hline]
      exact ⟨h1, h2, h3⟩
    · have hline : orgRowLine t i = orgSeparatorLine t.cols (t.data.getD i []) := by
        rw [orgRowLine_sep t i hS, Table.getRow]
      obtain ⟨h1, h2, h3, -⟩ := orgSeparatorLine_facts t.cols (t.data.getD i []) hne
        (by rw [(hrowfacts i hi).2 hS]; simp)
      rw [hline]
      exact ⟨h1, h2, h3⟩
  have hLlen : ((List.range t.rows.length).map (orgRowLine t)).length =
      t.rows.length := by
    simp
  have hLne : (List.range t.rows.length).map (orgRowLine t) ≠ [] := by
    intro hcon
    have hz : t.rows.length = 0 := by
      rw [← hLlen, hcon]
      rfl
    omega
  have hmemline : ∀ l ∈ (List.range t.rows.length).map (orgRowLine t),
      ∃ i, i < t.rows.length ∧ l = orgRowLine t i := by
    intro l hl
    rw [List.mem_map] at hl
    obtain ⟨i, hi, rfl⟩ := hl
    rw [List.mem_range] at hi
    exact ⟨i, hi, rfl⟩
  have hsplit : (List.intercalate ['\n']
      ((List.range t.rows.length).map (orgRowLine t))).splitOn '\n' =
      (List.range t.rows.length).map (orgRowLine t) := by
    apply List.splitOn_intercalate
    · intro l hl
      obtain ⟨i, hi, rfl⟩ := hmemline l hl
      exact (hlf i hi).2.2
    · exact hLne
  have hTne : List.intercalate ['\n']
      ((List.range t.rows.length).map (orgRowLine t)) ≠ [] := by
    intro hT
    rw [hT] at hsplit
    rw [show (([] : Str).splitOn '\n') = [[]] from rfl] at hsplit
    have hf0mem : orgRowLine t 0 ∈
        (List.range t.rows.length).map (orgRowLine t) := by
      rw [List.mem_map]
      refine ⟨0, ?_, rfl⟩
      rw [List.mem_range]
      omega
    rw [← hsplit] at hf0mem
    have h2 : orgRowLine t 0 = [] := List.mem_singleton.mp hf0mem
    have h3 := (hlf 0 (by omega)).1
    rw [h2] at h3
    exact absurd h3 (by decide)
  have hmap : ((List.range t.rows.length).map (orgRowLine t)).map jsTrim =
      (List.range t.rows.length).map (orgRowLine t) := by
    rw [show ((List.range t.rows.length).map (orgRowLine t)).map jsTrim =
        ((List.range t.rows.length).map (orgRowLine t)).map (fun l => l) from
      List.map_congr_left fun l hl => by
        obtain ⟨i, hi, rfl⟩ := hmemline l hl
        exact (hlf i hi).2.1]
    exact List.map_id' _
  have hfilter : ((List.range t.rows.length).map (orgRowLine t)).filter
      (fun x => jsStartsWith x ['|']) =
      (List.range t.rows.length).map (orgRowLine t) := by
    apply List.filter_eq_self.mpr
    intro l hl
    obtain ⟨i, hi, rfl⟩ := hmemline l hl
    exact (hlf i hi).1
  obtain ⟨colsN, hfold, hclen, halign⟩ := org_parse_fold t hM1 hdlen hhead hrowfacts
    hnoUnk t.rows.length hN1 (le_refl _)
  have hLfull : ((List.range t.rows.length).map (orgRowLine t)).take
      t.rows.length = (List.range t.rows.length).map (orgRowLine t) := by
    have htl := List.take_length ((List.range t.rows.length).map (orgRowLine t))
    rw [hLlen] at htl
    exact htl
  rw [hLfull] at hfold
  rw [List.take_length] at hfold
  rw [show t.data.take t.rows.length = t.data from by rw [← hdlen]; exact List.take_length _]
    at hfold
  have hrecalc : ∀ cN : List ColDef, cN.map ColDef.alignment = t.cols.map ColDef.alignment →
      (⟨0, t.rows, cN, t.data⟩ : Table).recalculateColumnWidths =
        ⟨0, t.rows, t.cols, t.data⟩ := by
    intro cN hali
    have hc := recalcColsAux_congr t.data cN t.cols hali 0
    have hcw : (if t.rows.any (· == RowType.Separator) = true then
        raiseWidthsTo3 (recalcColsAux t.data t.cols 0)
      else recalcColsAux t.data t.cols 0) = t.cols := by
      have hcw0 : t.recalculateColumnWidths.cols = t.cols := hconsist
      simp only [Table.recalculateColumnWidths, hasSeparatorRow] at hcw0
      exact hcw0
    show (⟨0, t.rows, cN, t.data⟩ : Table).recalculateColumnWidths =
      ⟨0, t.rows, t.cols, t.data⟩
    simp only [Table.recalculateColumnWidths, hasSeparatorRow]
    rw [hc, hcw]
  have haligneq : colsN.map ColDef.alignment = t.cols.map ColDef.alignment := by
    rw [halign]
    have hreplic : t.cols.map ColDef.alignment =
        List.replicate t.cols.length Alignment.Left := by
      apply List.eq_replicate_iff.mpr
      refine ⟨by simp, ?_⟩
      intro b hb
      rw [List.mem_map] at hb
      obtain ⟨c, hc, rfl⟩ := hb
      exact halignL c hc
    rw [hreplic]
  simp only [OrgParser.parse, OrgStringifier.stringify]
  rw [if_neg (show ¬((List.intercalate ['\n']
      ((List.range t.rows.length).map (orgRowLine t))).isEmpty = true) from by
    intro hc
    exact hTne (by
      cases hT : List.intercalate ['\n'] ((List.range t.rows.length).map (orgRowLine t)) with
      | nil => rfl
      | cons a l => rw [hT] at hc; cases hc))]
  rw [show jsSplit '\n' (List.intercalate ['\n']
      ((List.range t.rows.length).map (orgRowLine t))) =
      (List.intercalate ['\n']
        ((List.range t.rows.length).map (orgRowLine t))).splitOn '\n'
      from rfl]
  rw [hsplit, hmap, hfilter, hfold]
  rw [hrecalc colsN haligneq]

/-- Neither stringifier reads the start line of the table. -/
theorem md_stringify_startLine (sl : Nat) (rows : List RowType) (cols : List ColDef)
    (data : List (List Str)) :
    MarkdownStringifier.stringify ⟨sl, rows, cols, data⟩ =
      MarkdownStringifier.stringify ⟨0, rows, cols, data⟩ := by
  simp only [MarkdownStringifier.stringify]
  have hcond : hasSeparatorRow ⟨sl, rows, cols, data⟩ =
      hasSeparatorRow ⟨0, rows, cols, data⟩ := rfl
  rw [hcond]
  by_cases hsep : hasSeparatorRow ⟨0, rows, cols, data⟩ = true
  · rw [if_pos hsep, if_pos hsep]
    show List.intercalate ['\n'] ((List.range rows.length).map
        (mdRowLine ⟨sl, rows, raiseWidthsTo3 cols, data⟩)) =
      List.intercalate ['\n'] ((List.range rows.length).map
        (mdRowLine ⟨0, rows, raiseWidthsTo3 cols, data⟩))
    refine congrArg _ (List.map_congr_left fun i _ => ?_)
    rfl
  · rw [if_neg hsep, if_neg hsep]
    show List.intercalate ['\n'] ((List.range rows.length).map
        (mdRowLine ⟨sl, rows, cols, data⟩)) =
      List.intercalate ['\n'] ((List.range rows.length).map
        (mdRowLine ⟨0, rows, cols, data⟩))
    refine congrArg _ (List.map_congr_left fun i _ => ?_)
    rfl

theorem org_stringify_startLine (sl : Nat) (rows : List RowType) (cols : List ColDef)
    (data : List (List Str)) :
    OrgStringifier.stringify ⟨sl, rows, cols, data⟩ =
      OrgStringifier.stringify ⟨0, rows, cols, data⟩ := by
  simp only [OrgStringifier.stringify]
  show List.intercalate ['\n'] ((List.range rows.length).map
      (orgRowLine ⟨sl, rows, cols, data⟩)) =
    List.intercalate ['\n'] ((List.range rows.length).map
      (orgRowLine ⟨0, rows, cols, data⟩))
  refine congrArg _ (List.map_congr_left fun i _ => ?_)
  rfl

/-! ### Claim C5 (amended theorem) -/

/-- C5 amended: stringify-parse-stringify is the identity on rendered text
    for tables in canonical form, in both dialects.  For Markdown the table
    must additionally render no data row that passes the separator test and
    carry only left alignment when it has no separator row; for Org only
    left alignment round-trips at all.  The re-parse reproduces the table
    itself up to the fresh start line, so the second stringify equals the
    first. -/
theorem stringify_parse_stringify (t : Table) :
    (canonicalMd t → ∃ u, MarkdownParser.parse (MarkdownStringifier.stringify t) = some u ∧
      MarkdownStringifier.stringify u = MarkdownStringifier.stringify t) ∧
    (canonicalOrg t → ∃ u, OrgParser.parse (OrgStringifier.stringify t) = some u ∧
      OrgStringifier.stringify u = OrgStringifier.stringify t) := by
  constructor
  · intro h
    refine ⟨⟨0, t.rows, t.cols, t.data⟩, md_roundtrip t h, ?_⟩
    rcases t with ⟨sl, rows, cols, data⟩
    exact (md_stringify_startLine sl rows cols data).symm
  · intro h
    refine ⟨⟨0, t.rows, t.cols, t.data⟩, org_roundtrip t h, ?_⟩
    rcases t with ⟨sl, rows, cols, data⟩
    exact (org_stringify_startLine sl rows cols data).symm

/-- C5 witness: the canonical two-column table with a data row, a separator
    row and a second data row round-trips in both dialects. -/
theorem stringify_parse_stringify_witness :
    canonicalMd w5table ∧ canonicalOrg w5table ∧
    (∃ u, MarkdownParser.parse (MarkdownStringifier.stringify w5table) = some u ∧
      MarkdownStringifier.stringify u = MarkdownStringifier.stringify w5table) ∧
    (∃ u, OrgParser.parse (OrgStringifier.stringify w5table) = some u ∧
      OrgStringifier.stringify u = OrgStringifier.stringify w5table) := by
  have hmd : canonicalMd w5table := by
    unfold canonicalMd canonicalShared
    decide
  have horg : canonicalOrg w5table := by
    unfold canonicalOrg canonicalShared
    decide
  exact ⟨hmd, horg, (stringify_parse_stringify w5table).1 hmd,
    (stringify_parse_stringify w5table).2 horg⟩

end TextTables
